import Mathlib

set_option maxRecDepth 100000

/-!
Shallow embedding of the rustgo Go engine: board/group/liberty algorithms
(src/go), the AGA rules state machine (src/aga), and the generic action-tree
engine (src/engine), with theorems settling the frozen specification claims.

Rust `HashSet`s are modelled as duplicate-free lists (with `List.dedup` where
the code relies on the set's cardinality) or as `Finset`s where only the set
value matters; panics (out-of-range indexing) are modelled by `Option`, with
`none` meaning the Rust code panics.
-/

namespace RustGo

/-- `Stone`: either black, white or empty (src/go/stone, enum Stone). -/
inductive Stone where
  | Black
  | White
  | Empty
deriving DecidableEq, Repr

/-- `Player`: either black or white (src/go/player, enum Player). -/
inductive Player where
  | Black
  | White
deriving DecidableEq, Repr

/-- `Player::other`: returns the other player. -/
def Player.other : Player → Player
  | Player.Black => Player.White
  | Player.White => Player.Black

/-- `Player::stone`: returns the stone the player uses. -/
def Player.stone : Player → Stone
  | Player.Black => Stone.Black
  | Player.White => Stone.White

/-- `Position19x19`: a position on a board of 19x19 lines, `x y : usize`. -/
structure Position where
  x : Nat
  y : Nat
deriving DecidableEq, Repr

/-- `Board19x19`: a 19x19 grid of stones, `state: [[Stone; 19]; 19]`,
modelled as a list of rows (row `y`, column `x`). -/
structure Board19x19 where
  state : List (List Stone)
deriving DecidableEq, Repr

namespace Board19x19

/-- `Board19x19::new`: constructs a new empty board. -/
def new : Board19x19 :=
  ⟨List.replicate 19 (List.replicate 19 Stone.Empty)⟩

/-- `Board19x19::on_board`: `position.x < 19 && position.y < 19`. -/
def onBoard (position : Position) : Bool :=
  position.x < 19 && position.y < 19

/-- `Board19x19::at`: `self.state[position.y][position.x]`.  Rust panics when
an index is out of range; the panic is modelled by `none`. -/
def atPos (b : Board19x19) (position : Position) : Option Stone :=
  (b.state.get? position.y).bind (fun row => row.get? position.x)

/-- `Board19x19::set`: `self.state[position.y][position.x] = *stone`.  Rust
panics when an index is out of range; every call site reaches `set` only with
an in-range position (an earlier `at` on the same position panics first), so
the out-of-range case is modelled as a no-op (`List.set` ignores it). -/
def setStone (b : Board19x19) (position : Position) (stone : Stone) : Board19x19 :=
  match b.state.get? position.y with
  | none => b
  | some row => ⟨b.state.set position.y (row.set position.x stone)⟩

/-- `Board19x19::positions`: all 361 positions, outer loop over `x`,
inner loop over `y`. -/
def positions : List Position :=
  (List.range 19).flatMap (fun x => (List.range 19).map (fun y => ⟨x, y⟩))

/-- `Board19x19::neighbors`: the orthogonally adjacent positions, pushed in
the source's order (`x+1`, `x-1`, `y+1`, `y-1`, each under its bound check). -/
def neighbors (position : Position) : List Position :=
  (if position.x < 18 then [⟨position.x + 1, position.y⟩] else []) ++
  (if 0 < position.x then [⟨position.x - 1, position.y⟩] else []) ++
  (if position.y < 18 then [⟨position.x, position.y + 1⟩] else []) ++
  (if 0 < position.y then [⟨position.x, position.y - 1⟩] else [])

/-- One `if` block of `set_handicap`: applies the placements when the
condition on the requested stone count holds. -/
def handicapStep (cond : Prop) [Decidable cond]
    (f : Board19x19 → Board19x19) (b : Board19x19) : Board19x19 :=
  if cond then f b else b

/-- `Board19x19::set_handicap`: places black stones on fixed star points
according to the requested number of handicap stones, one conditional
placement block after the other as in the source. -/
def set_handicap (b : Board19x19) (stones : Nat) : Board19x19 :=
  handicapStep (stones = 8 ∨ stones = 9)
    (fun bb => (bb.setStone ⟨10, 4⟩ Stone.Black).setStone ⟨10, 14⟩ Stone.Black)
    (handicapStep (6 ≤ stones ∧ stones ≤ 9)
      (fun bb => (bb.setStone ⟨4, 10⟩ Stone.Black).setStone ⟨14, 10⟩ Stone.Black)
      (handicapStep (stones = 5 ∨ stones = 7 ∨ stones = 9)
        (fun bb => bb.setStone ⟨10, 10⟩ Stone.Black)
        (handicapStep (4 ≤ stones ∧ stones ≤ 9)
          (fun bb => bb.setStone ⟨4, 4⟩ Stone.Black)
          (handicapStep (3 ≤ stones ∧ stones ≤ 9)
            (fun bb => bb.setStone ⟨14, 14⟩ Stone.Black)
            (handicapStep (2 ≤ stones ∧ stones ≤ 9)
              (fun bb => (bb.setStone ⟨14, 4⟩ Stone.Black).setStone ⟨4, 14⟩
                Stone.Black)
              b)))))

/-- A board value that actually arises from the Rust type `[[Stone; 19]; 19]`:
19 rows of 19 stones each. -/
def WF (b : Board19x19) : Prop :=
  b.state.length = 19 ∧ ∀ row ∈ b.state, row.length = 19

instance : DecidablePred WF := fun b => by
  unfold WF; infer_instance

end Board19x19

open Board19x19

/-- `Group` (src/go/group): a set of same-colored positions on a board
together with the color obtained from `Group::stone()` (`at` of a member,
`none` for the empty group). -/
structure GoGroup where
  positions : List Position
  stone : Option Stone
deriving DecidableEq, Repr

/-- Worklist loop of `Group::new`: pops a position, pushes its unvisited
same-colored neighbors onto the stack and into the content set.  The Rust
`while` loop terminates because every position enters `content` at most once;
here the same bound is supplied as fuel (`2 * 361 + 1` exceeds the total
number of pops the loop can make). -/
def floodAux (b : Board19x19) (s : Stone) :
    Nat → List Position → List Position → List Position
  | 0, _, content => content
  | _ + 1, [], content => content
  | fuel + 1, top :: stack, content =>
    let ns := (neighbors top).filter
      (fun n => decide (b.atPos n = some s) && !(decide (n ∈ content)))
    floodAux b s fuel (ns ++ stack) (content ++ ns)

/-- `Group::new`: collects all stones with the same color connected to the
given position; if there is no stone there, the group is empty.  Reading the
stone at an off-board position panics in Rust; callers only reach this with
an on-board position, and the off-board case is mapped to the empty group. -/
def mkGroup (b : Board19x19) (position : Position) : GoGroup :=
  match b.atPos position with
  | none => ⟨[], none⟩
  | some Stone.Empty => ⟨[], none⟩
  | some s => ⟨floodAux b s (2 * 361 + 1) [position] [position], some s⟩

/-- `Group::liberties`: the set of empty positions adjacent to the group.
The Rust `HashSet` collection is modelled by `dedup`, so the length is the
number of distinct liberties. -/
def liberties (b : Board19x19) (g : GoGroup) : List Position :=
  (g.positions.flatMap (fun p => (neighbors p).filter
      (fun q => decide (b.atPos q = some Stone.Empty)))).dedup

/-- Loop of `Board::groups_with_liberty_at`: walks the neighbors of the
position and collects their groups, skipping a neighbor already contained in
a found group. -/
def collectGroups (b : Board19x19) :
    List Position → List GoGroup → List GoGroup
  | [], found => found
  | n :: rest, found =>
    if found.any (fun g => decide (n ∈ g.positions)) then
      collectGroups b rest found
    else
      collectGroups b rest (found ++ [mkGroup b n])

/-- `Board::groups_with_liberty_at`: the distinct groups found among the
position's neighbors; returns the empty list when the position is occupied.
`none` models the Rust panic of `at` on an off-board position. -/
def groupsWithLibertyAt (b : Board19x19) (position : Position) :
    Option (List GoGroup) :=
  match b.atPos position with
  | none => none
  | some s =>
    if s ≠ Stone.Empty then some [] else
      some (collectGroups b (neighbors position) [])

/-- `Board::would_be_captured`: positions of the neighboring groups that are
not the player's color and have exactly one liberty (the flat-map order of
the Rust iterator; the `HashSet` value is its `toFinset`).  `none` models the
panic on an off-board position. -/
def wouldBeCaptured (b : Board19x19) (player : Player) (position : Position) :
    Option (List Position) :=
  (groupsWithLibertyAt b position).map (fun gs =>
    (gs.filter (fun g =>
        decide (g.stone.getD Stone.Empty ≠ player.stone) &&
        decide ((liberties b g).length = 1))).flatMap (fun g => g.positions))

/-- Loop of `Board::would_be_suicide` over the found groups: an opposing
group on its last liberty means a kill (not suicide), a friendly group with
two or more liberties keeps the play alive, and otherwise a friendly group on
its last liberty flags suicide. -/
def suicideLoop (b : Board19x19) (player : Player) : List GoGroup → Bool → Bool
  | [], flag => flag
  | g :: rest, flag =>
    let libs := (liberties b g).length
    let owner := g.stone.getD Stone.Empty
    if libs = 1 ∧ owner = player.other.stone then
      false
    else if 1 < libs ∧ owner = player.stone then
      false
    else
      suicideLoop b player rest (flag || decide (libs = 1 ∧ owner = player.stone))

/-- `Board::would_be_suicide`: runs `suicideLoop` over the groups adjacent to
the position, starting with the flag down.  `none` models the panic on an
off-board position. -/
def wouldBeSuicide (b : Board19x19) (position : Position) (player : Player) :
    Option Bool :=
  (groupsWithLibertyAt b position).map (fun gs => suicideLoop b player gs false)

/-- One pass of the `while` body of `Board::erode`: walks the listed empty
positions and fills each one that currently has a neighbor of the target
color, threading the mutated board and the change flag. -/
def erodeSweep (s : Stone) : List Position → Board19x19 × Bool → Board19x19 × Bool
  | [], st => st
  | ep :: rest, (b, change) =>
    if (neighbors ep).any (fun n => decide (b.atPos n = some s)) then
      erodeSweep s rest (b.setStone ep s, true)
    else
      erodeSweep s rest (b, change)

/-- The empty positions of the board, recomputed before each sweep. -/
def emptyPositions (b : Board19x19) : List Position :=
  positions.filter (fun pos => decide (b.atPos pos = some Stone.Empty))

/-- The `while change` loop of `Board::erode`.  The Rust loop terminates
because every changing sweep fills at least one empty position; the fuel
passed by `erode` (number of empty positions plus one) therefore suffices. -/
def erodeLoop (s : Stone) : Nat → Board19x19 → Board19x19
  | 0, b => b
  | fuel + 1, b =>
    let (b', change) := erodeSweep s (emptyPositions b) (b, false)
    if change then erodeLoop s fuel b' else b'

/-- `Board::erode`: fills all empty intersections that neighbor a stone of
the given color with that color, repeating until nothing changes. -/
def erode (b : Board19x19) (s : Stone) : Board19x19 :=
  erodeLoop s ((emptyPositions b).length + 1) b

/-- `Board::area_scoring`: erodes one clone for white and one for black and
counts each position for a color if the own-eroded clone shows that color or
the other-eroded clone does not show the other color; returns
`(black_score, white_score)`. -/
def areaScoring (b : Board19x19) : Nat × Nat :=
  let white_board := erode b Stone.White
  let black_board := erode b Stone.Black
  let white_score := (positions.filter (fun pos =>
      decide (white_board.atPos pos = some Stone.White) ||
      !decide (black_board.atPos pos = some Stone.Black))).length
  let black_score := (positions.filter (fun pos =>
      decide (black_board.atPos pos = some Stone.Black) ||
      !decide (white_board.atPos pos = some Stone.White))).length
  (black_score, white_score)

/-- `KoState` (src/aga/rules): a board layout together with the player to
move next; such a combination may not repeat within one game. -/
structure KoState where
  board : Board19x19
  player : Player
deriving DecidableEq, Repr

/-- `KoState::from_move`: clones the board, computes the captured stones of a
hypothetical play, places the player's stone, clears the captured stones, and
pairs the result with the other player.  `none` models the panic of
`would_be_captured` on an off-board position. -/
def KoState.from_move (board : Board19x19) (position : Position)
    (player : Player) : Option KoState :=
  (wouldBeCaptured board player position).map (fun captured =>
    ⟨captured.foldl (fun bb q => bb.setStone q Stone.Empty)
        (board.setStone position player.stone),
      player.other⟩)

/-- `GamePhase` (src/aga/rules): the finite set of game phases; `Ended`
carries `(black_score, white_score)`. -/
inductive GamePhase where
  | Running
  | BlackPassed
  | Ending
  | EndRequested (player : Player)
  | Ended (black_score white_score : Nat)
deriving DecidableEq, Repr

/-- `GameState` (src/aga/rules): board, ply count, phase, proposed dead
stones and the set of registered ko states. -/
structure AGAState where
  board : Board19x19
  ply : Nat
  phase : GamePhase
  dead_stones : Option (List Position)
  ko_states : Finset KoState
deriving DecidableEq

/-- `GameState::new` (the `engine::GameState` impl): empty board, ply 0,
phase `Running`, no dead stones, no ko states. -/
def initState : AGAState :=
  ⟨Board19x19.new, 0, GamePhase.Running, none, ∅⟩

/-- `GameState::current_player`: black if the ply count is even, white
otherwise. -/
def AGAState.current_player (st : AGAState) : Player :=
  if st.ply % 2 = 0 then Player.Black else Player.White

/-- `GameState::register_ko_state`: inserts the current board with the
current player into the ko-state set. -/
def AGAState.register_ko_state (st : AGAState) : AGAState :=
  { st with ko_states := insert ⟨st.board, st.current_player⟩ st.ko_states }

/-- `GameState::would_be_ko`: membership of the hypothetical post-play state
in the registered ko-state set; `none` models the panic on an off-board
position. -/
def AGAState.would_be_ko (st : AGAState) (position : Position)
    (player : Player) : Option Bool :=
  (KoState.from_move st.board position player).map
    (fun ks => decide (ks ∈ st.ko_states))

/-- `Action` (src/aga/rules): the possible actions of a game. -/
inductive AGAAction where
  | Handicap (stones : Nat)
  | Pass (player : Player)
  | Play (player : Player) (pos : Position)
  | RequestEnd (player : Player) (dead_stones : List Position)
  | RejectEnd (player : Player)
  | AcceptEnd (player : Player)
deriving DecidableEq, Repr

/-- The `all` iterator of the `RequestEnd` test arm:
`dead_stones.iter().all(|pos| at(pos) != Empty && on_board(pos))`, stopping
at the first failing position; `at` panics (`none`) on an off-board position
reached before any failing one. -/
def validDeadStones (b : Board19x19) : List Position → Option Bool
  | [] => some true
  | d :: rest =>
    match b.atPos d with
    | none => none
    | some s =>
      if s ≠ Stone.Empty ∧ Board19x19.onBoard d then validDeadStones b rest
      else some false

/-- `Action::test` (the `engine::Action` impl): the guard of each action.
`none` models a panic while evaluating the guard (`at` on an off-board
position).  In the `Play` arm the Rust code evaluates `would_be_suicide`
before `would_be_ko` and short-circuits between them; both panic on exactly
the same positions, so a single propagated `none` is faithful. -/
def testA (a : AGAAction) (st : AGAState) : Option Bool :=
  match a with
  | AGAAction.Handicap _ => some (decide (st.ply = 0))
  | AGAAction.Pass player =>
    let normal_pass := st.phase = GamePhase.Running
    let finishing_pass := st.phase = GamePhase.BlackPassed
    let my_turn := player = st.current_player
    some (decide ((normal_pass ∨ finishing_pass) ∧ my_turn))
  | AGAAction.Play player position =>
    let valid_position := Board19x19.onBoard position &&
      decide (st.board.atPos position = some Stone.Empty)
    match wouldBeSuicide st.board position player with
    | none => none
    | some suicide =>
      if suicide then some false
      else
        (st.would_be_ko position player).map (fun ko =>
          let valid_phase := st.phase = GamePhase.Running ∨
            st.phase = GamePhase.BlackPassed
          let my_turn := player = st.current_player
          valid_position && !ko && decide valid_phase && decide my_turn)
  | AGAAction.RequestEnd _ dead_stones =>
    (validDeadStones st.board dead_stones).map (fun valid_dead =>
      decide (st.phase = GamePhase.Ending) && valid_dead)
  | AGAAction.RejectEnd player =>
    match st.phase with
    | GamePhase.EndRequested requesting_player =>
      some (decide (requesting_player ≠ player))
    | _ => some false
  | AGAAction.AcceptEnd player =>
    match st.phase with
    | GamePhase.EndRequested requesting_player =>
      some (decide (requesting_player ≠ player))
    | _ => some false

/-- `Action::execute` (the `engine::Action` impl): the effect of each action.
`none` models the panic of the `Play` arm on an off-board position. -/
def execA (a : AGAAction) (st : AGAState) : Option AGAState :=
  match a with
  | AGAAction.Handicap stones =>
    some (AGAState.register_ko_state
      { st with board := st.board.set_handicap stones, ply := st.ply + 1 })
  | AGAAction.Pass player =>
    let phase :=
      if player = Player.Black then GamePhase.BlackPassed
      else if player = Player.White ∧ st.phase = GamePhase.BlackPassed then
        GamePhase.Ending
      else st.phase
    some (AGAState.register_ko_state
      { st with phase := phase, ply := st.ply + 1 })
  | AGAAction.Play player position =>
    (wouldBeCaptured st.board player position).map (fun captured =>
      AGAState.register_ko_state
        { st with
            board := captured.foldl (fun bb q => bb.setStone q Stone.Empty)
              (st.board.setStone position player.stone),
            ply := st.ply + 1,
            phase := GamePhase.Running })
  | AGAAction.RequestEnd player dead_stones =>
    some { st with phase := GamePhase.EndRequested player,
                   dead_stones := some dead_stones }
  | AGAAction.RejectEnd _ =>
    some { st with phase := GamePhase.Ending, dead_stones := none }
  | AGAAction.AcceptEnd _ =>
    some { st with phase := GamePhase.Ended (areaScoring st.board).1
                     (areaScoring st.board).2 }

/-- Runs a list of actions from a state, requiring every action to pass its
guard; `none` if some guard fails or panics. -/
def runAccepted : AGAState → List AGAAction → Option AGAState
  | st, [] => some st
  | st, a :: rest =>
    if testA a st = some true then
      (execA a st).bind (fun st' => runAccepted st' rest)
    else none

/-- A state reachable from the initial state by accepted actions. -/
def Reachable (st : AGAState) : Prop :=
  ∃ acts, runAccepted initState acts = some st

/-- The ply-consuming actions: `Handicap`, `Pass` and `Play`. -/
def plyAction : AGAAction → Prop
  | AGAAction.Handicap _ => True
  | AGAAction.Pass _ => True
  | AGAAction.Play _ _ => True
  | _ => False

/-- The `(board, next-to-move player)` snapshot of a state, as registered by
`register_ko_state`. -/
def koSnapshot (st : AGAState) : KoState :=
  ⟨st.board, st.current_player⟩

/-- Every board position mentioned by the action is on the board (the
condition under which no guard evaluation can panic). -/
def actionOnBoard : AGAAction → Prop
  | AGAAction.Play _ pos => Board19x19.onBoard pos = true
  | AGAAction.RequestEnd _ dead => ∀ d ∈ dead, Board19x19.onBoard d = true
  | _ => True

/-- Invariant of reachable states: the board is a real 19x19 grid and the
ply count is positive whenever the phase has left `Running`. -/
def StateInv (st : AGAState) : Prop :=
  st.board.WF ∧ (st.phase ≠ GamePhase.Running → 1 ≤ st.ply)

/-- The step relation of the connected-component search of `Group::new`:
`q` is a neighbor of `p` carrying stone `s`. -/
def groupStep (b : Board19x19) (s : Stone) (p q : Position) : Prop :=
  q ∈ neighbors p ∧ b.atPos q = some s

/-- Modelled from the spec (claim C1 right-hand side): the play "neither
captures any opposing group nor leaves any connected friendly stones with a
liberty" — no captures, and the friendly group containing the played stone
has no liberty on the post-play board (with no captures, the post-play board
is the board with the player's stone placed). -/
def specSuicide (b : Board19x19) (position : Position) (player : Player) : Prop :=
  wouldBeCaptured b player position = some [] ∧
  liberties (b.setStone position player.stone)
    (mkGroup (b.setStone position player.stone) position) = []

/-- Modelled from the spec (claim C4 right-hand side): the union of the
positions of every neighboring group of the opposite color whose liberty set
is exactly `{position}` (the played point was its last liberty). -/
def specCaptured (b : Board19x19) (player : Player) (position : Position) :
    Finset Position :=
  (neighbors position).toFinset.biUnion (fun n =>
    let g := mkGroup b n
    if g.stone = some player.other.stone ∧
        (liberties b g).toFinset = {position} then
      g.positions.toFinset
    else ∅)

/-- C1 failing input: an empty board with white stones at `(0,1)` and
`(1,0)`; black playing at the corner `(0,0)` plays into a point fully
surrounded by white with no capture available. -/
def eyeBoard : Board19x19 :=
  (Board19x19.new.setStone ⟨0, 1⟩ Stone.White).setStone ⟨1, 0⟩ Stone.White

/-- Second C1 failing input: black at `(0,0)`, white at `(0,1)`; black
playing at `(1,0)` connects to a one-liberty friendly group but gains fresh
liberties at `(2,0)` and `(1,1)`. -/
def bridgeBoard : Board19x19 :=
  (Board19x19.new.setStone ⟨0, 0⟩ Stone.Black).setStone ⟨0, 1⟩ Stone.White

/-- C4 witness board: a two-stone white group at `(0,0)`,`(1,0)` enclosed by
black with its single shared liberty at `(2,0)`. -/
def captureBoard : Board19x19 :=
  (((Board19x19.new.setStone ⟨0, 0⟩ Stone.White).setStone ⟨1, 0⟩
      Stone.White).setStone ⟨0, 1⟩ Stone.Black).setStone ⟨1, 1⟩ Stone.Black

/-- A full game reaching the `Ended` phase: both players pass, white
requests the end, black accepts. -/
def endActions : List AGAAction :=
  [AGAAction.Pass Player.Black, AGAAction.Pass Player.White,
   AGAAction.RequestEnd Player.White [], AGAAction.AcceptEnd Player.Black]

/-- The reachable `Ended` state produced by `endActions`. -/
def endedState : AGAState :=
  (runAccepted initState endActions).getD initState

/-- The ko-test sequence of src/aga/rules/test.rs (`capture_ko`): after these
seven plays, white recapturing at `(1,0)` would repeat a position. -/
def koActions : List AGAAction :=
  [AGAAction.Play Player.Black ⟨0, 0⟩, AGAAction.Play Player.White ⟨1, 0⟩,
   AGAAction.Play Player.Black ⟨2, 0⟩, AGAAction.Play Player.White ⟨0, 1⟩,
   AGAAction.Play Player.Black ⟨1, 1⟩, AGAAction.Play Player.White ⟨2, 1⟩,
   AGAAction.Play Player.Black ⟨0, 0⟩]

/-- The reachable state produced by `koActions`. -/
def koTestState : AGAState :=
  (runAccepted initState koActions).getD initState

end RustGo

namespace RustGo.Engine

/-- `engine::Path`: either the root reference or the id of a history item. -/
inductive Path where
  | Empty
  | HistoryItemId (id : Nat)
deriving DecidableEq, Repr

/-- `engine::HistoryItem`: the path to the parent item and an action to be
executed after it. -/
structure HistoryItem (α : Type) where
  parent : Path
  action : α
deriving DecidableEq, Repr

/-- `engine::Game`: the flat array of history items. -/
structure Game (α : Type) where
  data : List (HistoryItem α)
deriving DecidableEq, Repr

/-- The parent-chasing `while` loop of `Game::get_state`, collecting the
actions from the leaf to the root.  `self.data[curr]` panics on an index out
of range (`none`); the loop terminates because in any tree built by `insert`
every parent id is smaller than its child's id, which also shows that the
fuel `get_state` passes suffices. -/
def chainTo (g : Game α) : Nat → Nat → Option (List α)
  | 0, _ => none
  | fuel + 1, curr =>
    match g.data.get? curr with
    | none => none
    | some item =>
      match item.parent with
      | Path.Empty => some [item.action]
      | Path.HistoryItemId next => (chainTo g fuel next).map (item.action :: ·)

/-- `Game::get_state`: replays the collected actions in root-to-leaf order
from the initial state. -/
def getState (init : σ) (ex : α → σ → σ) (g : Game α) : Path → Option σ
  | Path.Empty => some init
  | Path.HistoryItemId i =>
    (chainTo g (i + 1) i).map (fun l => l.reverse.foldl (fun s a => ex a s) init)

/-- `Game::insert`: reconstructs the state at the parent, and if the action's
test holds appends a history item and returns a path to it, otherwise
returns the root sentinel leaving the tree unchanged.  `none` models the
panic of `get_state` on a path not in the tree. -/
def insert (init : σ) (tst : α → σ → Bool) (ex : α → σ → σ) (g : Game α)
    (parent : Path) (a : α) : Option (Game α × Path) :=
  (getState init ex g parent).map (fun st =>
    if tst a st then
      (⟨g.data ++ [⟨parent, a⟩]⟩, Path.HistoryItemId g.data.length)
    else
      (g, Path.Empty))

/-- Trees built by `insert`: every stored parent id is smaller than the id of
the item holding it. -/
def WFGame (g : Game α) : Prop :=
  ∀ i item j, g.data.get? i = some item →
    item.parent = Path.HistoryItemId j → j < i

/-- The ancestor chain of a path: the actions stored on the path from the
root down to the path, in root-to-leaf order. -/
inductive Ancestry (g : Game α) : Path → List α → Prop where
  | root : Ancestry g Path.Empty []
  | node (i : Nat) (item : HistoryItem α) (l : List α) :
      g.data.get? i = some item → Ancestry g item.parent l →
      Ancestry g (Path.HistoryItemId i) (l ++ [item.action])

/-- A one-item sample tree used to exercise the engine theorems. -/
def sampleGame : Game Unit :=
  ⟨[⟨Path.Empty, ()⟩]⟩

end RustGo.Engine

namespace RustGo

open Board19x19

/-! ### Basic board lemmas -/

theorem mem_positions {q : Position} :
    q ∈ Board19x19.positions ↔ (q.x < 19 ∧ q.y < 19) := by
  simp only [Board19x19.positions, List.mem_flatMap, List.mem_map,
    List.mem_range]
  constructor
  · rintro ⟨x, hx, y, hy, rfl⟩
    exact ⟨hx, hy⟩
  · rintro ⟨hx, hy⟩
    exact ⟨q.x, hx, q.y, hy, rfl⟩

theorem positions_nodup : Board19x19.positions.Nodup := by
  unfold Board19x19.positions
  refine List.nodup_flatMap.mpr ⟨fun x _ => ?_, ?_⟩
  · exact List.Nodup.map (fun a b h => by injection h) (List.nodup_range 19)
  · refine (List.pairwise_lt_range 19).imp ?_
    intro a b hab q hqa hqb
    rcases List.mem_map.mp hqa with ⟨y1, _, rfl⟩
    rcases List.mem_map.mp hqb with ⟨y2, _, heq⟩
    injection heq with h1 h2
    omega


theorem positions_length : Board19x19.positions.length = 361 := by decide

theorem atPos_isSome_iff {b : Board19x19} (hb : b.WF) {p : Position} :
    (b.atPos p).isSome ↔ Board19x19.onBoard p = true := by
  obtain ⟨hlen, hrows⟩ := hb
  unfold Board19x19.atPos Board19x19.onBoard
  cases hrow : b.state.get? p.y with
  | none =>
    have hy : 19 ≤ p.y := hlen ▸ List.get?_eq_none.mp hrow
    simp only [Option.bind]
    constructor
    · intro h
      exact absurd h (by simp)
    · intro h
      simp only [Bool.and_eq_true, decide_eq_true_eq] at h
      omega
  | some row =>
    have hr19 : row.length = 19 := hrows row (List.get?_mem hrow)
    have hylt : p.y < 19 := by
      by_contra hge
      rw [List.get?_eq_none.mpr (by omega)] at hrow
      exact Option.noConfusion hrow
    show ((some row).bind (fun row => row.get? p.x)).isSome ↔ _
    have hbind : ((some row).bind (fun row => row.get? p.x)) = row.get? p.x := rfl
    rw [hbind]
    constructor
    · intro h
      have hx : p.x < row.length := by
        by_contra hge
        rw [List.get?_eq_none.mpr (Nat.le_of_not_lt hge)] at h
        exact Bool.noConfusion h
      simp only [Bool.and_eq_true, decide_eq_true_eq]
      omega
    · intro h
      simp only [Bool.and_eq_true, decide_eq_true_eq] at h
      cases hxq : row.get? p.x with
      | none =>
        have := List.get?_eq_none.mp hxq
        omega
      | some s => rfl

theorem atPos_none_iff {b : Board19x19} (hb : b.WF) {p : Position} :
    b.atPos p = none ↔ Board19x19.onBoard p = false := by
  rw [← Option.not_isSome_iff_eq_none, atPos_isSome_iff hb]
  simp

theorem atPos_some_onBoard {b : Board19x19} (hb : b.WF) {p : Position}
    {s : Stone} (h : b.atPos p = some s) : Board19x19.onBoard p = true := by
  rw [← atPos_isSome_iff hb, h]
  rfl

theorem mem_neighbors {p q : Position} :
    q ∈ neighbors p ↔
      (p.x < 18 ∧ q = ⟨p.x + 1, p.y⟩) ∨ (0 < p.x ∧ q = ⟨p.x - 1, p.y⟩) ∨
      (p.y < 18 ∧ q = ⟨p.x, p.y + 1⟩) ∨ (0 < p.y ∧ q = ⟨p.x, p.y - 1⟩) := by
  unfold neighbors
  simp only [List.mem_append]
  constructor
  · intro h
    rcases h with ((h | h) | h) | h <;>
      [skip; skip; skip; skip] <;>
      first
      | (left; constructor
         · by_contra hc
           simp [hc] at h
         · rcases Nat.lt_or_ge p.x 18 with hx | hx
           · simpa [hx] using h
           · simp [Nat.not_lt.mpr hx] at h)
      | (right; left; constructor
         · by_contra hc
           simp [Nat.le_zero.mp (Nat.not_lt.mp hc)] at h
         · rcases Nat.lt_or_ge 0 p.x with hx | hx
           · simpa [hx] using h
           · simp [Nat.not_lt.mpr hx] at h)
      | (right; right; left; constructor
         · by_contra hc
           simp [hc] at h
         · rcases Nat.lt_or_ge p.y 18 with hy | hy
           · simpa [hy] using h
           · simp [Nat.not_lt.mpr hy] at h)
      | (right; right; right; constructor
         · by_contra hc
           simp [Nat.le_zero.mp (Nat.not_lt.mp hc)] at h
         · rcases Nat.lt_or_ge 0 p.y with hy | hy
           · simpa [hy] using h
           · simp [Nat.not_lt.mpr hy] at h)
  · rintro (⟨hc, rfl⟩ | ⟨hc, rfl⟩ | ⟨hc, rfl⟩ | ⟨hc, rfl⟩) <;> simp [hc]

theorem neighbors_onBoard {p q : Position} (hp : Board19x19.onBoard p = true)
    (hq : q ∈ neighbors p) : Board19x19.onBoard q = true := by
  simp only [Board19x19.onBoard, Bool.and_eq_true, decide_eq_true_eq] at hp ⊢
  rcases mem_neighbors.mp hq with ⟨h, rfl⟩ | ⟨h, rfl⟩ | ⟨h, rfl⟩ | ⟨h, rfl⟩ <;>
    simp <;> omega

theorem neighbors_symm {p q : Position} (hp : Board19x19.onBoard p = true)
    (hq : Board19x19.onBoard q = true) (h : q ∈ neighbors p) :
    p ∈ neighbors q := by
  obtain ⟨px, py⟩ := p
  obtain ⟨qx, qy⟩ := q
  simp only [Board19x19.onBoard, Bool.and_eq_true, decide_eq_true_eq] at hp hq
  rw [mem_neighbors] at h ⊢
  simp only [Position.mk.injEq] at h ⊢
  omega

theorem neighbors_nodup (p : Position) : (neighbors p).Nodup := by
  unfold neighbors
  obtain ⟨px, py⟩ := p
  rcases Nat.lt_or_ge px 18 with h1 | h1 <;>
    rcases Nat.lt_or_ge 0 px with h2 | h2 <;>
      rcases Nat.lt_or_ge py 18 with h3 | h3 <;>
        rcases Nat.lt_or_ge 0 py with h4 | h4 <;>
          simp [h1, h2, h3, h4, Nat.not_lt.mpr, Position.mk.injEq] <;> omega

theorem atPos_setStone (b : Board19x19) (p : Position) (s : Stone)
    (q : Position) :
    (b.setStone p s).atPos q =
      if p = q ∧ (b.atPos p).isSome then some s else b.atPos q := by
  obtain ⟨px, py⟩ := p
  obtain ⟨qx, qy⟩ := q
  cases hrow : b.state.get? py with
  | none =>
    have hset : b.setStone ⟨px, py⟩ s = b := by
      unfold Board19x19.setStone
      rw [show (⟨px, py⟩ : Position).y = py from rfl, hrow]
    have hap : b.atPos ⟨px, py⟩ = none := by
      unfold Board19x19.atPos
      rw [show (⟨px, py⟩ : Position).y = py from rfl, hrow]
      rfl
    rw [hset, hap]
    simp
  | some row =>
    have hset : b.setStone ⟨px, py⟩ s = ⟨b.state.set py (row.set px s)⟩ := by
      unfold Board19x19.setStone
      rw [show (⟨px, py⟩ : Position).y = py from rfl, hrow]
    have hap : b.atPos ⟨px, py⟩ = row.get? px := by
      unfold Board19x19.atPos
      rw [show (⟨px, py⟩ : Position).y = py from rfl, hrow]
      rfl
    rw [hset, hap]
    show ((b.state.set py (row.set px s)).get? qy).bind (fun r => r.get? qx) = _
    by_cases hy : py = qy
    · subst hy
      rw [List.get?_set_eq, hrow]
      by_cases hx : px = qx
      · subst hx
        show (row.set px s).get? px = _
        rw [List.get?_set_eq]
        cases hrx : row.get? px with
        | none =>
          simp [hrx, hap]
          exact List.get?_eq_none.mp hrx
        | some t =>
          simp [hrx]
      · show (row.set px s).get? qx = _
        rw [List.get?_set_ne _ _ hx]
        have hne : ¬((⟨px, py⟩ : Position) = ⟨qx, py⟩ ∧
            (row.get? px).isSome) := by
          rintro ⟨heq, _⟩
          exact hx (congrArg Position.x heq)
        rw [if_neg hne]
        show row.get? qx = b.atPos ⟨qx, py⟩
        unfold Board19x19.atPos
        rw [show (⟨qx, py⟩ : Position).y = py from rfl, hrow]
        rfl
    · rw [List.get?_set_ne _ _ hy]
      have hne : ¬((⟨px, py⟩ : Position) = ⟨qx, qy⟩ ∧
          (row.get? px).isSome) := by
        rintro ⟨heq, _⟩
        exact hy (congrArg Position.y heq)
      rw [if_neg hne]
      rfl

theorem WF_setStone {b : Board19x19} (hb : b.WF) (p : Position) (s : Stone) :
    (b.setStone p s).WF := by
  obtain ⟨hlen, hrows⟩ := hb
  unfold Board19x19.setStone
  cases hrow : b.state.get? p.y with
  | none => exact ⟨hlen, hrows⟩
  | some row =>
    refine ⟨by simpa using hlen, ?_⟩
    intro r hr
    rcases List.mem_or_eq_of_mem_set hr with hmem | rfl
    · exact hrows r hmem
    · simpa using hrows row (List.get?_mem hrow)

theorem WF_new : Board19x19.new.WF := by decide

theorem WF_foldl_setStone {l : List Position} :
    ∀ {b : Board19x19}, b.WF →
      (l.foldl (fun bb q => bb.setStone q Stone.Empty) b).WF := by
  induction l with
  | nil => intro b hb; exact hb
  | cons q rest ih => intro b hb; exact ih (WF_setStone hb q Stone.Empty)

theorem WF_handicapStep {cond : Prop} [Decidable cond]
    {f : Board19x19 → Board19x19} (hf : ∀ bb, bb.WF → (f bb).WF)
    {b : Board19x19} (hb : b.WF) : (Board19x19.handicapStep cond f b).WF := by
  unfold Board19x19.handicapStep
  split
  · exact hf b hb
  · exact hb

theorem handicapStep_neg {cond : Prop} [Decidable cond]
    {f : Board19x19 → Board19x19} (h : ¬cond) (b : Board19x19) :
    Board19x19.handicapStep cond f b = b := by
  unfold Board19x19.handicapStep
  exact if_neg h

theorem WF_set_handicap {b : Board19x19} (hb : b.WF) (n : Nat) :
    (b.set_handicap n).WF := by
  unfold Board19x19.set_handicap
  refine WF_handicapStep (fun bb hbb => WF_setStone (WF_setStone hbb _ _) _ _)
    (WF_handicapStep (fun bb hbb => WF_setStone (WF_setStone hbb _ _) _ _)
      (WF_handicapStep (fun bb hbb => WF_setStone hbb _ _)
        (WF_handicapStep (fun bb hbb => WF_setStone hbb _ _)
          (WF_handicapStep (fun bb hbb => WF_setStone hbb _ _)
            (WF_handicapStep
              (fun bb hbb => WF_setStone (WF_setStone hbb _ _) _ _) hb)))))

theorem floodAux_master {b : Board19x19} {s : Stone} (hb : b.WF) (r : Position) :
    ∀ (fuel : Nat) (stack content : List Position),
      content.Nodup →
      (∀ q ∈ stack, q ∈ content) →
      (∀ q ∈ content, b.atPos q = some s) →
      (∀ q ∈ content, Relation.ReflTransGen (groupStep b s) r q) →
      (∀ q ∈ content, q ∈ stack ∨ ∀ n, groupStep b s q n → n ∈ content) →
      2 * (361 - content.length) + stack.length ≤ fuel →
      (∀ q ∈ content, q ∈ floodAux b s fuel stack content) ∧
      (∀ q ∈ floodAux b s fuel stack content, b.atPos q = some s) ∧
      (∀ q ∈ floodAux b s fuel stack content,
        Relation.ReflTransGen (groupStep b s) r q) ∧
      (∀ q ∈ floodAux b s fuel stack content, ∀ n, groupStep b s q n →
        n ∈ floodAux b s fuel stack content) := by
  intro fuel
  induction fuel with
  | zero =>
    intro stack content hnd hsc hcol hreach hclose hfuel
    have hst : stack = [] := List.length_eq_zero.mp (by omega)
    subst hst
    show (∀ q ∈ content, q ∈ content) ∧ _
    refine ⟨fun q hq => hq, hcol, hreach, fun q hq n hn => ?_⟩
    exact (hclose q hq).resolve_left (by simp) n hn
  | succ fuel ih =>
    intro stack content hnd hsc hcol hreach hclose hfuel
    match stack with
    | [] =>
      show (∀ q ∈ content, q ∈ content) ∧ _
      refine ⟨fun q hq => hq, hcol, hreach, fun q hq n hn => ?_⟩
      exact (hclose q hq).resolve_left (by simp) n hn
    | top :: stack' =>
      have htopc : top ∈ content := hsc top (List.mem_cons_self top stack')
      have hunf : floodAux b s (fuel + 1) (top :: stack') content =
          floodAux b s fuel
            (((neighbors top).filter
              (fun n => decide (b.atPos n = some s) && !(decide (n ∈ content)))) ++ stack')
            (content ++ ((neighbors top).filter
              (fun n => decide (b.atPos n = some s) && !(decide (n ∈ content))))) := rfl
      set ns := (neighbors top).filter
        (fun n => decide (b.atPos n = some s) && !(decide (n ∈ content))) with hns
      have hmem_ns : ∀ n, n ∈ ns ↔
          n ∈ neighbors top ∧ b.atPos n = some s ∧ n ∉ content := by
        intro n
        rw [hns, List.mem_filter]
        simp
      have hnd' : (content ++ ns).Nodup := by
        refine List.Nodup.append hnd ?_ ?_
        · exact List.Nodup.filter _ (neighbors_nodup top)
        · intro a ha hans
          exact ((hmem_ns a).mp hans).2.2 ha
      have hsc' : ∀ q ∈ ns ++ stack', q ∈ content ++ ns := by
        intro q hq
        rcases List.mem_append.mp hq with h | h
        · exact List.mem_append_right _ h
        · exact List.mem_append_left _ (hsc q (List.mem_cons_of_mem _ h))
      have hcol' : ∀ q ∈ content ++ ns, b.atPos q = some s := by
        intro q hq
        rcases List.mem_append.mp hq with h | h
        · exact hcol q h
        · exact ((hmem_ns q).mp h).2.1
      have hreach' : ∀ q ∈ content ++ ns,
          Relation.ReflTransGen (groupStep b s) r q := by
        intro q hq
        rcases List.mem_append.mp hq with h | h
        · exact hreach q h
        · obtain ⟨hnb, hcolq, _⟩ := (hmem_ns q).mp h
          exact Relation.ReflTransGen.tail (hreach top htopc) ⟨hnb, hcolq⟩
      have hclose' : ∀ q ∈ content ++ ns,
          q ∈ ns ++ stack' ∨ ∀ n, groupStep b s q n → n ∈ content ++ ns := by
        intro q hq
        rcases List.mem_append.mp hq with h | h
        · rcases hclose q h with hst | hcl
          · rcases List.mem_cons.mp hst with rfl | hst'
            · right
              intro n hn
              by_cases hnc : n ∈ content
              · exact List.mem_append_left _ hnc
              · exact List.mem_append_right _
                  ((hmem_ns n).mpr ⟨hn.1, hn.2, hnc⟩)
            · exact Or.inl (List.mem_append_right _ hst')
          · exact Or.inr (fun n hn => List.mem_append_left _ (hcl n hn))
        · exact Or.inl (List.mem_append_left _ h)
      have hsub : ∀ q ∈ content ++ ns, q ∈ Board19x19.positions := by
        intro q hq
        have hq' := hcol' q hq
        have := atPos_some_onBoard hb hq'
        simp only [Board19x19.onBoard, Bool.and_eq_true, decide_eq_true_eq]
          at this
        exact mem_positions.mpr this
      have hlen361 : (content ++ ns).length ≤ 361 := by
        have := List.Subperm.length_le
          (List.subperm_of_subset hnd' hsub)
        rwa [positions_length] at this
      have hfuel' :
          2 * (361 - (content ++ ns).length) + (ns ++ stack').length ≤ fuel := by
        rw [List.length_append] at hlen361 ⊢
        rw [List.length_append]
        have hstl : (top :: stack').length = stack'.length + 1 := by
          simp
        rw [hstl] at hfuel
        omega
      obtain ⟨c1, c2, c3, c4⟩ := ih (ns ++ stack') (content ++ ns)
        hnd' hsc' hcol' hreach' hclose' hfuel'
      rw [hunf]
      exact ⟨fun q hq => c1 q (List.mem_append_left _ hq), c2, c3, c4⟩

theorem mkGroup_eq_flood {b : Board19x19} {pos : Position} {s : Stone}
    (h : b.atPos pos = some s) (hs : s ≠ Stone.Empty) :
    mkGroup b pos = ⟨floodAux b s (2 * 361 + 1) [pos] [pos], some s⟩ := by
  unfold mkGroup
  rw [h]
  cases s with
  | Empty => exact absurd rfl hs
  | Black => rfl
  | White => rfl

theorem mem_mkGroup {b : Board19x19} (hb : b.WF) {pos : Position} {s : Stone}
    (h : b.atPos pos = some s) (hs : s ≠ Stone.Empty) {q : Position} :
    q ∈ (mkGroup b pos).positions ↔
      Relation.ReflTransGen (groupStep b s) pos q := by
  rw [mkGroup_eq_flood h hs]
  obtain ⟨c1, c2, c3, c4⟩ := floodAux_master hb pos (2 * 361 + 1) [pos] [pos]
    (List.nodup_singleton pos)
    (fun q hq => hq)
    (fun q hq => by rwa [List.mem_singleton.mp hq])
    (fun q hq => by rw [List.mem_singleton.mp hq])
    (fun q hq => Or.inl hq)
    (by simp)
  constructor
  · exact c3 q
  · intro hr
    induction hr with
    | refl => exact c1 pos (List.mem_singleton_self pos)
    | tail hab hbc ih => exact c4 _ ih _ hbc

theorem groupStep_chain_colored {b : Board19x19} {s : Stone} {a q : Position}
    (h : Relation.ReflTransGen (groupStep b s) a q)
    (ha : b.atPos a = some s) : b.atPos q = some s := by
  induction h with
  | refl => exact ha
  | tail _ hbc _ => exact hbc.2

theorem groupStep_symm {b : Board19x19} (hb : b.WF) {s : Stone}
    {a q : Position} (ha : b.atPos a = some s)
    (h : Relation.ReflTransGen (groupStep b s) a q) :
    Relation.ReflTransGen (groupStep b s) q a := by
  induction h with
  | refl => exact Relation.ReflTransGen.refl
  | tail hab hbc ih =>
    have hbcol : b.atPos _ = some s := groupStep_chain_colored hab ha
    refine Relation.ReflTransGen.head ⟨?_, hbcol⟩ ih
    exact neighbors_symm (atPos_some_onBoard hb hbcol)
      (atPos_some_onBoard hb hbc.2) hbc.1

theorem mkGroup_mem_iff_of_mem {b : Board19x19} (hb : b.WF) {n' : Position}
    {s : Stone} (h' : b.atPos n' = some s) (hs : s ≠ Stone.Empty)
    {n : Position} (hn : n ∈ (mkGroup b n').positions) (q : Position) :
    (q ∈ (mkGroup b n).positions ↔ q ∈ (mkGroup b n').positions) := by
  have hrn : Relation.ReflTransGen (groupStep b s) n' n :=
    (mem_mkGroup hb h' hs).mp hn
  have hcn : b.atPos n = some s := groupStep_chain_colored hrn h'
  rw [mem_mkGroup hb hcn hs, mem_mkGroup hb h' hs]
  constructor
  · exact fun hq => Relation.ReflTransGen.trans hrn hq
  · exact fun hq =>
      Relation.ReflTransGen.trans (groupStep_symm hb h' hrn) hq

theorem mkGroup_self_mem {b : Board19x19} (hb : b.WF) {pos : Position}
    {s : Stone} (h : b.atPos pos = some s) (hs : s ≠ Stone.Empty) :
    pos ∈ (mkGroup b pos).positions :=
  (mem_mkGroup hb h hs).mpr Relation.ReflTransGen.refl

theorem mkGroup_stone {b : Board19x19} {pos : Position} {s : Stone}
    (h : b.atPos pos = some s) (hs : s ≠ Stone.Empty) :
    (mkGroup b pos).stone = some s := by
  rw [mkGroup_eq_flood h hs]

theorem mkGroup_colored {b : Board19x19} (hb : b.WF) {pos : Position}
    {s : Stone} (h : b.atPos pos = some s) (hs : s ≠ Stone.Empty)
    {q : Position} (hq : q ∈ (mkGroup b pos).positions) :
    b.atPos q = some s :=
  groupStep_chain_colored ((mem_mkGroup hb h hs).mp hq) h

theorem mem_liberties {b : Board19x19} {g : GoGroup} {q : Position} :
    q ∈ liberties b g ↔
      ∃ p ∈ g.positions, q ∈ neighbors p ∧
        b.atPos q = some Stone.Empty := by
  unfold liberties
  rw [List.mem_dedup, List.mem_flatMap]
  constructor
  · rintro ⟨p, hp, hq⟩
    rw [List.mem_filter] at hq
    exact ⟨p, hp, hq.1, by simpa using hq.2⟩
  · rintro ⟨p, hp, hnb, hemp⟩
    exact ⟨p, hp, List.mem_filter.mpr ⟨hnb, by simpa using hemp⟩⟩

theorem liberties_nodup (b : Board19x19) (g : GoGroup) :
    (liberties b g).Nodup :=
  List.nodup_dedup _

theorem liberties_length_eq_card (b : Board19x19) (g : GoGroup) :
    (liberties b g).length = (liberties b g).toFinset.card := by
  rw [List.toFinset_card_of_nodup (liberties_nodup b g)]

theorem collectGroups_mono (b : Board19x19) :
    ∀ (rest : List Position) (found : List GoGroup) (g : GoGroup),
      g ∈ found → g ∈ collectGroups b rest found := by
  intro rest
  induction rest with
  | nil => intro found g hg; exact hg
  | cons n rest' ih =>
    intro found g hg
    show g ∈ collectGroups b (n :: rest') found
    unfold collectGroups
    split
    · exact ih found g hg
    · exact ih _ g (List.mem_append_left _ hg)

theorem collectGroups_orig (b : Board19x19) :
    ∀ (rest : List Position) (found : List GoGroup) (g : GoGroup),
      g ∈ collectGroups b rest found →
      g ∈ found ∨ ∃ n ∈ rest, g = mkGroup b n := by
  intro rest
  induction rest with
  | nil => intro found g hg; exact Or.inl hg
  | cons n rest' ih =>
    intro found g hg
    unfold collectGroups at hg
    split at hg
    · rcases ih found g hg with h | ⟨m, hm, rfl⟩
      · exact Or.inl h
      · exact Or.inr ⟨m, List.mem_cons_of_mem _ hm, rfl⟩
    · rcases ih _ g hg with h | ⟨m, hm, rfl⟩
      · rcases List.mem_append.mp h with h' | h'
        · exact Or.inl h'
        · rcases List.mem_singleton.mp h' with rfl
          exact Or.inr ⟨n, List.mem_cons_self n rest', rfl⟩
      · exact Or.inr ⟨m, List.mem_cons_of_mem _ hm, rfl⟩

theorem collectGroups_cover (b : Board19x19) :
    ∀ (rest : List Position) (found : List GoGroup) (n : Position),
      n ∈ rest →
      ∃ g ∈ collectGroups b rest found, g = mkGroup b n ∨ n ∈ g.positions := by
  intro rest
  induction rest with
  | nil => intro found n hn; exact absurd hn (List.not_mem_nil n)
  | cons m rest' ih =>
    intro found n hn
    rcases List.mem_cons.mp hn with rfl | hn'
    · show ∃ g ∈ collectGroups b (n :: rest') found, _
      unfold collectGroups
      split
      next hfound =>
        rcases List.any_eq_true.mp hfound with ⟨g, hg, hgn⟩
        exact ⟨g, collectGroups_mono b rest' found g hg,
          Or.inr (by simpa using hgn)⟩
      next =>
        exact ⟨mkGroup b n,
          collectGroups_mono b rest' _ _
            (List.mem_append_right _ (List.mem_singleton_self _)),
          Or.inl rfl⟩
    · show ∃ g ∈ collectGroups b (m :: rest') found, _
      unfold collectGroups
      split
      · exact ih found n hn'
      · exact ih _ n hn'

theorem stone_ne_iff (t : Stone) (p : Player) (ht : t ≠ Stone.Empty) :
    (t ≠ p.stone ↔ t = p.other.stone) := by
  cases t <;> cases p <;> simp_all [Player.stone, Player.other]

theorem liberties_congr {b : Board19x19} {g1 g2 : GoGroup}
    (h : ∀ q, q ∈ g1.positions ↔ q ∈ g2.positions) :
    (liberties b g1).toFinset = (liberties b g2).toFinset ∧
      (liberties b g1).length = (liberties b g2).length := by
  have hmem : ∀ q, q ∈ liberties b g1 ↔ q ∈ liberties b g2 := by
    intro q
    rw [mem_liberties, mem_liberties]
    constructor
    · rintro ⟨r, hr, h1, h2⟩; exact ⟨r, (h r).mp hr, h1, h2⟩
    · rintro ⟨r, hr, h1, h2⟩; exact ⟨r, (h r).mpr hr, h1, h2⟩
  have htf : (liberties b g1).toFinset = (liberties b g2).toFinset := by
    ext q
    simpa using hmem q
  refine ⟨htf, ?_⟩
  rw [liberties_length_eq_card, liberties_length_eq_card, htf]

theorem capture_cond_iff {b : Board19x19} (hb : b.WF) (p : Player)
    {pos : Position} (hpos : b.atPos pos = some Stone.Empty)
    {n : Position} (hn : n ∈ neighbors pos) :
    ((mkGroup b n).stone.getD Stone.Empty ≠ p.stone ∧
        (liberties b (mkGroup b n)).length = 1) ↔
      ((mkGroup b n).stone = some p.other.stone ∧
        (liberties b (mkGroup b n)).toFinset = {pos}) := by
  have hposOn : Board19x19.onBoard pos = true := atPos_some_onBoard hb hpos
  have hnOn : Board19x19.onBoard n = true := neighbors_onBoard hposOn hn
  have hnSome : (b.atPos n).isSome := (atPos_isSome_iff hb).mpr hnOn
  obtain ⟨t, ht⟩ := Option.isSome_iff_exists.mp hnSome
  by_cases hte : t = Stone.Empty
  · subst hte
    have hg : mkGroup b n = ⟨[], none⟩ := by
      unfold mkGroup
      rw [ht]
    rw [hg]
    have hlib : liberties b (⟨[], none⟩ : GoGroup) = [] := rfl
    simp [hlib]
  · have hgstone : (mkGroup b n).stone = some t := mkGroup_stone ht hte
    have hposlib : pos ∈ liberties b (mkGroup b n) := by
      rw [mem_liberties]
      exact ⟨n, mkGroup_self_mem hb ht hte,
        neighbors_symm hposOn hnOn hn, hpos⟩
    have hlen : (liberties b (mkGroup b n)).length = 1 ↔
        (liberties b (mkGroup b n)).toFinset = {pos} := by
      rw [liberties_length_eq_card]
      constructor
      · intro h1
        obtain ⟨a, ha⟩ := Finset.card_eq_one.mp h1
        have : pos ∈ (liberties b (mkGroup b n)).toFinset :=
          List.mem_toFinset.mpr hposlib
        rw [ha] at this ⊢
        rw [Finset.mem_singleton.mp this]
      · intro h1
        rw [h1]
        rfl
    rw [hgstone]
    constructor
    · rintro ⟨hne, hl⟩
      refine ⟨?_, hlen.mp hl⟩
      have : t = p.other.stone := (stone_ne_iff t p hte).mp (by simpa using hne)
      rw [this]
    · rintro ⟨hcol, hl⟩
      have hto : t = p.other.stone := by
        injection hcol
      refine ⟨?_, hlen.mpr hl⟩
      simp only [Option.getD_some]
      rw [hto]
      cases p <;> simp [Player.stone, Player.other]

theorem wouldBeCaptured_spec {b : Board19x19} (hb : b.WF) (p : Player)
    {pos : Position} (hpos : b.atPos pos = some Stone.Empty) :
    (wouldBeCaptured b p pos).map List.toFinset =
      some (specCaptured b p pos) := by
  have hgwla : groupsWithLibertyAt b pos =
      some (collectGroups b (neighbors pos) []) := by
    unfold groupsWithLibertyAt
    rw [hpos]
    simp
  have hwbc : wouldBeCaptured b p pos =
      some (((collectGroups b (neighbors pos) []).filter (fun g =>
        decide (g.stone.getD Stone.Empty ≠ p.stone) &&
        decide ((liberties b g).length = 1))).flatMap (fun g => g.positions)) := by
    unfold wouldBeCaptured
    rw [hgwla]
    rfl
  rw [hwbc]
  refine congrArg some ?_
  ext q
  rw [List.mem_toFinset, List.mem_flatMap]
  unfold specCaptured
  rw [Finset.mem_biUnion]
  constructor
  · rintro ⟨g, hgmem, hqg⟩
    rw [List.mem_filter] at hgmem
    obtain ⟨hgcoll, hcond⟩ := hgmem
    rcases collectGroups_orig b _ _ g hgcoll with h | ⟨n, hn, rfl⟩
    · exact absurd h (List.not_mem_nil g)
    · have hcond' : (mkGroup b n).stone.getD Stone.Empty ≠ p.stone ∧
          (liberties b (mkGroup b n)).length = 1 := by
        simpa [Bool.and_eq_true, decide_eq_true_eq] using hcond
      have hspec := (capture_cond_iff hb p hpos hn).mp hcond'
      refine ⟨n, List.mem_toFinset.mpr hn, ?_⟩
      show q ∈ (if (mkGroup b n).stone = some p.other.stone ∧
          (liberties b (mkGroup b n)).toFinset = {pos} then
          (mkGroup b n).positions.toFinset else ∅)
      rw [if_pos hspec]
      exact List.mem_toFinset.mpr hqg
  · rintro ⟨n, hn', hq⟩
    have hn : n ∈ neighbors pos := List.mem_toFinset.mp hn'
    have hq2 : q ∈ (if (mkGroup b n).stone = some p.other.stone ∧
        (liberties b (mkGroup b n)).toFinset = {pos} then
        (mkGroup b n).positions.toFinset else ∅) := hq
    clear hq
    rename' hq2 => hq
    by_cases hc : (mkGroup b n).stone = some p.other.stone ∧
        (liberties b (mkGroup b n)).toFinset = {pos}
    · rw [if_pos hc] at hq
      have hqpos : q ∈ (mkGroup b n).positions := List.mem_toFinset.mp hq
      obtain ⟨g, hgcoll, hgor⟩ := collectGroups_cover b (neighbors pos) [] n hn
      have hcondB : ∀ g' : GoGroup,
          (g'.stone.getD Stone.Empty ≠ p.stone ∧
            (liberties b g').length = 1) →
          (decide (g'.stone.getD Stone.Empty ≠ p.stone) &&
            decide ((liberties b g').length = 1)) = true := by
        intro g' hg'
        simp [hg'.1, hg'.2]
      rcases hgor with rfl | hng
      · exact ⟨_, List.mem_filter.mpr ⟨hgcoll,
          hcondB _ ((capture_cond_iff hb p hpos hn).mpr hc)⟩, hqpos⟩
      · rcases collectGroups_orig b _ _ g hgcoll with h | ⟨m, hm, rfl⟩
        · exact absurd h (List.not_mem_nil g)
        · have hposOn : Board19x19.onBoard pos = true :=
            atPos_some_onBoard hb hpos
          have hmOn : Board19x19.onBoard m = true :=
            neighbors_onBoard hposOn hm
          obtain ⟨t, ht⟩ := Option.isSome_iff_exists.mp
            ((atPos_isSome_iff hb).mpr hmOn)
          by_cases hte : t = Stone.Empty
          · subst hte
            have hgm : mkGroup b m = ⟨[], none⟩ := by
              unfold mkGroup
              rw [ht]
            rw [hgm] at hng
            exact absurd hng (List.not_mem_nil n)
          · have hmemiff := mkGroup_mem_iff_of_mem hb ht hte hng
            have hcoln : b.atPos n = some t := mkGroup_colored hb ht hte hng
            have hstn : (mkGroup b n).stone = some t := mkGroup_stone hcoln hte
            have hstm : (mkGroup b m).stone = some t := mkGroup_stone ht hte
            obtain ⟨hltf, hlln⟩ := liberties_congr (b := b) hmemiff
            have hcm : (mkGroup b m).stone = some p.other.stone ∧
                (liberties b (mkGroup b m)).toFinset = {pos} := by
              constructor
              · rw [hstm, ← hstn]
                exact hc.1
              · rw [← hltf]
                exact hc.2
            exact ⟨mkGroup b m, List.mem_filter.mpr ⟨hgcoll,
                hcondB _ ((capture_cond_iff hb p hpos hm).mpr hcm)⟩,
              (hmemiff q).mp hqpos⟩
    · rw [if_neg hc] at hq
      exact absurd hq (Finset.not_mem_empty q)

/-! ### Claims C1 and C4: capture and suicide -/

/-- C4: for every player `p` and every empty on-board position `pos` of a
well-formed board, `would_be_captured(p, pos)` returns exactly the union of
the positions of the neighboring groups of the opposite color whose liberty
set is exactly `{pos}` (`pos` was their last liberty); groups with two or
more liberties contribute nothing. -/
theorem claim_C4_would_be_captured (b : Board19x19) (p : Player)
    (pos : Position) (hb : b.WF) (hOn : Board19x19.onBoard pos = true)
    (hpos : b.atPos pos = some Stone.Empty) :
    (wouldBeCaptured b p pos).map List.toFinset =
      some (specCaptured b p pos) :=
  wouldBeCaptured_spec hb p hpos

/-- Witness for C4 at the spec's example: a two-stone white group whose
single shared liberty `(2,0)` is played by black is captured exactly. -/
theorem claim_C4_witness :
    (wouldBeCaptured captureBoard Player.Black ⟨2, 0⟩).map List.toFinset =
      some (specCaptured captureBoard Player.Black ⟨2, 0⟩) ∧
    wouldBeCaptured captureBoard Player.Black ⟨2, 0⟩ =
      some [⟨1, 0⟩, ⟨0, 0⟩] :=
  ⟨claim_C4_would_be_captured captureBoard Player.Black ⟨2, 0⟩ (by decide)
      (by decide) (by decide),
    by decide⟩

/-- C1 (code bug): `would_be_suicide` disagrees with "true exactly when the
play neither captures nor leaves any connected friendly stones with a
liberty" in both directions.  On `eyeBoard`, black playing `(0,0)` — a point
fully surrounded by white with no captures available — is suicide per the
claim, yet the code returns `false` (it only inspects *neighboring* friendly
groups and there are none).  On `bridgeBoard`, black playing `(1,0)` joins a
one-liberty friendly group but gains fresh liberties, not suicide per the
claim, yet the code returns `true`. -/
theorem claim_C1_would_be_suicide_bug :
    (eyeBoard.atPos ⟨0, 0⟩ = some Stone.Empty ∧
      Board19x19.onBoard (⟨0, 0⟩ : Position) = true ∧
      wouldBeSuicide eyeBoard ⟨0, 0⟩ Player.Black = some false ∧
      specSuicide eyeBoard ⟨0, 0⟩ Player.Black) ∧
    (bridgeBoard.atPos ⟨1, 0⟩ = some Stone.Empty ∧
      Board19x19.onBoard (⟨1, 0⟩ : Position) = true ∧
      wouldBeSuicide bridgeBoard ⟨1, 0⟩ Player.Black = some true ∧
      ¬ specSuicide bridgeBoard ⟨1, 0⟩ Player.Black) := by
  constructor
  · exact ⟨by decide, by decide, by decide, by decide, by decide⟩
  · refine ⟨by decide, by decide, by decide, ?_⟩
    intro h
    exact absurd h.2 (by decide)

/-! ### AGA rules lemmas -/

theorem gwla_eq_none {b : Board19x19} {pos : Position}
    (hpos : b.atPos pos = none) : groupsWithLibertyAt b pos = none := by
  unfold groupsWithLibertyAt
  rw [hpos]

theorem gwla_eq_some_collect {b : Board19x19} {pos : Position}
    (hpos : b.atPos pos = some Stone.Empty) :
    groupsWithLibertyAt b pos =
      some (collectGroups b (neighbors pos) []) := by
  unfold groupsWithLibertyAt
  rw [hpos]
  simp

theorem gwla_eq_some_nil {b : Board19x19} {pos : Position} {s : Stone}
    (hpos : b.atPos pos = some s) (hs : s ≠ Stone.Empty) :
    groupsWithLibertyAt b pos = some [] := by
  unfold groupsWithLibertyAt
  rw [hpos]
  simp [hs]

theorem gwla_isSome {b : Board19x19} {pos : Position} :
    (groupsWithLibertyAt b pos).isSome = (b.atPos pos).isSome := by
  cases hb : b.atPos pos with
  | none => rw [gwla_eq_none hb]; rfl
  | some s =>
    by_cases hs : s = Stone.Empty
    · subst hs
      rw [gwla_eq_some_collect hb]
      rfl
    · rw [gwla_eq_some_nil hb hs]
      rfl

theorem gwla_none_iff {b : Board19x19} {pos : Position} :
    groupsWithLibertyAt b pos = none ↔ b.atPos pos = none := by
  rw [← Option.not_isSome_iff_eq_none, ← Option.not_isSome_iff_eq_none,
    gwla_isSome]

theorem wouldBeSuicide_none_iff {b : Board19x19} {pos : Position}
    {p : Player} :
    wouldBeSuicide b pos p = none ↔ b.atPos pos = none := by
  unfold wouldBeSuicide
  rw [Option.map_eq_none', gwla_none_iff]

theorem wouldBeCaptured_none_iff {b : Board19x19} {pos : Position}
    {p : Player} :
    wouldBeCaptured b p pos = none ↔ b.atPos pos = none := by
  unfold wouldBeCaptured
  rw [Option.map_eq_none', gwla_none_iff]

theorem from_move_none_iff {b : Board19x19} {pos : Position} {p : Player} :
    KoState.from_move b pos p = none ↔ b.atPos pos = none := by
  unfold KoState.from_move
  rw [Option.map_eq_none', wouldBeCaptured_none_iff]

theorem would_be_ko_none_iff {st : AGAState} {pos : Position} {p : Player} :
    st.would_be_ko pos p = none ↔ st.board.atPos pos = none := by
  unfold AGAState.would_be_ko
  rw [Option.map_eq_none', from_move_none_iff]

theorem testA_Play_eq {st : AGAState} {p : Player} {pos : Position}
    {s : Stone} (hpos : st.board.atPos pos = some s) :
    ∃ suicide ko, wouldBeSuicide st.board pos p = some suicide ∧
      st.would_be_ko pos p = some ko ∧
      testA (AGAAction.Play p pos) st =
        some (!suicide &&
          ((Board19x19.onBoard pos &&
            decide (st.board.atPos pos = some Stone.Empty)) &&
          !ko &&
          decide (st.phase = GamePhase.Running ∨
            st.phase = GamePhase.BlackPassed) &&
          decide (p = st.current_player))) := by
  have hs : wouldBeSuicide st.board pos p ≠ none := by
    intro h
    have h2 := wouldBeSuicide_none_iff.mp h
    rw [hpos] at h2
    exact Option.noConfusion h2
  have hk : st.would_be_ko pos p ≠ none := by
    intro h
    have h2 := would_be_ko_none_iff.mp h
    rw [hpos] at h2
    exact Option.noConfusion h2
  obtain ⟨suicide, hsui⟩ := Option.ne_none_iff_exists'.mp hs
  obtain ⟨ko, hko⟩ := Option.ne_none_iff_exists'.mp hk
  refine ⟨suicide, ko, hsui, hko, ?_⟩
  simp only [testA]
  rw [hsui]
  cases suicide with
  | true => simp
  | false =>
    rw [hko]
    simp

theorem execA_Play_eq {st : AGAState} {p : Player} {pos : Position}
    {cap : List Position}
    (hcap : wouldBeCaptured st.board p pos = some cap) :
    execA (AGAAction.Play p pos) st =
      some (AGAState.register_ko_state
        { st with
            board := cap.foldl (fun bb q => bb.setStone q Stone.Empty)
              (st.board.setStone pos p.stone),
            ply := st.ply + 1,
            phase := GamePhase.Running }) := by
  simp only [execA]
  rw [hcap]
  rfl

theorem execA_ko_mono {a : AGAAction} {st st' : AGAState}
    (h : execA a st = some st') : st.ko_states ⊆ st'.ko_states := by
  cases a with
  | Handicap n =>
    injection h with h
    subst h
    exact Finset.subset_insert _ _
  | Pass p =>
    injection h with h
    subst h
    exact Finset.subset_insert _ _
  | Play p pos =>
    simp only [execA] at h
    cases hcap : wouldBeCaptured st.board p pos with
    | none => rw [hcap] at h; exact Option.noConfusion h
    | some cap =>
      rw [hcap] at h
      injection h with h
      subst h
      exact Finset.subset_insert _ _
  | RequestEnd p dead =>
    injection h with h
    subst h
    exact Finset.Subset.refl _
  | RejectEnd p =>
    injection h with h
    subst h
    exact Finset.Subset.refl _
  | AcceptEnd p =>
    injection h with h
    subst h
    exact Finset.Subset.refl _

theorem runAccepted_ko_mono :
    ∀ (acts : List AGAAction) (st st' : AGAState),
      runAccepted st acts = some st' → st.ko_states ⊆ st'.ko_states := by
  intro acts
  induction acts with
  | nil =>
    intro st st' h
    injection h with h
    subst h
    exact Finset.Subset.refl _
  | cons a rest ih =>
    intro st st' h
    simp only [runAccepted] at h
    split at h
    · cases hex : execA a st with
      | none => rw [hex] at h; exact Option.noConfusion h
      | some st1 =>
        rw [hex] at h
        exact (execA_ko_mono hex).trans (ih st1 st' h)
    · exact Option.noConfusion h

theorem execA_registers {a : AGAAction} {st st' : AGAState}
    (hply : plyAction a) (h : execA a st = some st') :
    koSnapshot st' ∈ st'.ko_states := by
  cases a with
  | Handicap n =>
    injection h with h
    subst h
    exact Finset.mem_insert_self _ _
  | Pass p =>
    injection h with h
    subst h
    exact Finset.mem_insert_self _ _
  | Play p pos =>
    simp only [execA] at h
    cases hcap : wouldBeCaptured st.board p pos with
    | none => rw [hcap] at h; exact Option.noConfusion h
    | some cap =>
      rw [hcap] at h
      injection h with h
      subst h
      exact Finset.mem_insert_self _ _
  | RequestEnd p dead => exact absurd hply id
  | RejectEnd p => exact absurd hply id
  | AcceptEnd p => exact absurd hply id

theorem initState_inv : StateInv initState :=
  ⟨WF_new, fun h => absurd rfl h⟩

theorem execA_inv {a : AGAAction} {st st' : AGAState}
    (htest : testA a st = some true) (hexec : execA a st = some st')
    (hinv : StateInv st) : StateInv st' := by
  obtain ⟨hwf, hply⟩ := hinv
  cases a with
  | Handicap n =>
    injection hexec with hexec
    subst hexec
    exact ⟨WF_set_handicap hwf n, fun _ => Nat.le_add_left 1 st.ply⟩
  | Pass p =>
    injection hexec with hexec
    subst hexec
    exact ⟨hwf, fun _ => Nat.le_add_left 1 st.ply⟩
  | Play p pos =>
    simp only [execA] at hexec
    cases hcap : wouldBeCaptured st.board p pos with
    | none => rw [hcap] at hexec; exact Option.noConfusion hexec
    | some cap =>
      rw [hcap] at hexec
      injection hexec with hexec
      subst hexec
      exact ⟨WF_foldl_setStone (WF_setStone hwf pos p.stone),
        fun _ => Nat.le_add_left 1 st.ply⟩
  | RequestEnd p dead =>
    have hend : st.phase = GamePhase.Ending := by
      simp only [testA] at htest
      cases hvd : validDeadStones st.board dead with
      | none => rw [hvd] at htest; exact Option.noConfusion htest
      | some vd =>
        rw [hvd] at htest
        injection htest with htest
        have := (Bool.and_eq_true _ _).mp htest
        exact of_decide_eq_true this.1
    injection hexec with hexec
    subst hexec
    exact ⟨hwf, fun _ => hply (by rw [hend]; simp)⟩
  | RejectEnd p =>
    have hreq : ∃ q, st.phase = GamePhase.EndRequested q := by
      simp only [testA] at htest
      cases hph : st.phase with
      | EndRequested q => exact ⟨q, rfl⟩
      | Running => rw [hph] at htest; simp at htest
      | BlackPassed => rw [hph] at htest; simp at htest
      | Ending => rw [hph] at htest; simp at htest
      | Ended bs ws => rw [hph] at htest; simp at htest
    obtain ⟨q, hq⟩ := hreq
    injection hexec with hexec
    subst hexec
    exact ⟨hwf, fun _ => hply (by rw [hq]; simp)⟩
  | AcceptEnd p =>
    have hreq : ∃ q, st.phase = GamePhase.EndRequested q := by
      simp only [testA] at htest
      cases hph : st.phase with
      | EndRequested q => exact ⟨q, rfl⟩
      | Running => rw [hph] at htest; simp at htest
      | BlackPassed => rw [hph] at htest; simp at htest
      | Ending => rw [hph] at htest; simp at htest
      | Ended bs ws => rw [hph] at htest; simp at htest
    obtain ⟨q, hq⟩ := hreq
    injection hexec with hexec
    subst hexec
    exact ⟨hwf, fun _ => hply (by rw [hq]; simp)⟩

theorem runAccepted_inv :
    ∀ (acts : List AGAAction) (st st' : AGAState),
      StateInv st → runAccepted st acts = some st' → StateInv st' := by
  intro acts
  induction acts with
  | nil =>
    intro st st' hinv h
    injection h with h
    subst h
    exact hinv
  | cons a rest ih =>
    intro st st' hinv h
    simp only [runAccepted] at h
    split at h
    next htest =>
      cases hex : execA a st with
      | none => rw [hex] at h; exact Option.noConfusion h
      | some st1 =>
        rw [hex] at h
        exact ih st1 st' (execA_inv htest hex hinv) h
    next => exact Option.noConfusion h

theorem reachable_inv {st : AGAState} (h : Reachable st) : StateInv st := by
  obtain ⟨acts, hacts⟩ := h
  exact runAccepted_inv acts initState st initState_inv hacts

/-! ### Claims C2 and C3: superko and the Play guard -/

/-- C2: a `Play` whose hypothetical post-play `(board, next mover)` pair is
already registered is rejected (`test` returns `false`); and after every
accepted ply-consuming action, its `(board, next mover)` snapshot is in the
ko-state set of every later state of the run, so a repeat is rejected even
several plies removed. -/
theorem claim_C2_superko :
    (∀ (st : AGAState) (p : Player) (pos : Position) (ks : KoState),
      Reachable st →
      KoState.from_move st.board pos p = some ks →
      ks ∈ st.ko_states →
      testA (AGAAction.Play p pos) st = some false) ∧
    (∀ (pre post : List AGAAction) (a : AGAAction) (st0 st1 st2 : AGAState),
      plyAction a →
      runAccepted initState pre = some st0 →
      testA a st0 = some true →
      execA a st0 = some st1 →
      runAccepted st1 post = some st2 →
      koSnapshot st1 ∈ st2.ko_states) := by
  constructor
  · intro st p pos ks _ hfm hks
    have hpos : st.board.atPos pos ≠ none := by
      intro h
      rw [← from_move_none_iff (p := p)] at h
      rw [h] at hfm
      exact Option.noConfusion hfm
    obtain ⟨s, hs⟩ := Option.ne_none_iff_exists'.mp hpos
    obtain ⟨suicide, ko, hsui, hko, htest⟩ := testA_Play_eq (p := p) hs
    have hko_true : st.would_be_ko pos p = some true := by
      unfold AGAState.would_be_ko
      rw [hfm]
      simp [hks]
    rw [hko] at hko_true
    injection hko_true with hko_true
    rw [htest, hko_true]
    simp
  · intro pre post a st0 st1 st2 hply _ _ hexec hrun
    exact runAccepted_ko_mono post st1 st2 hrun (execA_registers hply hexec)

/-- Witness for C2: in the `capture_ko` test game, white recapturing at
`(1,0)` is rejected by the superko rule; and the snapshot registered by
black's opening pass is in the resulting ko-state set. -/
theorem claim_C2_witness :
    testA (AGAAction.Play Player.White ⟨1, 0⟩) koTestState = some false ∧
    koSnapshot ((execA (AGAAction.Pass Player.Black) initState).getD
      initState) ∈ ((execA (AGAAction.Pass Player.Black) initState).getD
      initState).ko_states := by
  constructor
  · exact claim_C2_superko.1 koTestState Player.White ⟨1, 0⟩
      ((KoState.from_move koTestState.board ⟨1, 0⟩ Player.White).getD
        ⟨Board19x19.new, Player.Black⟩)
      ⟨koActions, by decide⟩ (by decide) (by decide)
  · exact claim_C2_superko.2 [] [] (AGAAction.Pass Player.Black) initState
      ((execA (AGAAction.Pass Player.Black) initState).getD initState)
      ((execA (AGAAction.Pass Player.Black) initState).getD initState)
      trivial rfl (by decide) rfl rfl

/-- C3 (amended): for a well-formed board the `Play` guard totally evaluates
to a boolean only when the position is on the board — and then holds only if
the point is empty, the phase is `Running` or `BlackPassed` and the player is
the current player — but an off-board position makes the guard panic
(out-of-range indexing inside `would_be_suicide`) instead of rejecting. -/
theorem claim_C3_play_guard (st : AGAState) (p : Player) (pos : Position)
    (hb : st.board.WF) :
    (Board19x19.onBoard pos = false →
      testA (AGAAction.Play p pos) st = none) ∧
    (Board19x19.onBoard pos = true →
      ∃ res, testA (AGAAction.Play p pos) st = some res ∧
        (res = true → st.board.atPos pos = some Stone.Empty ∧
          (st.phase = GamePhase.Running ∨
            st.phase = GamePhase.BlackPassed) ∧
          p = st.current_player)) := by
  constructor
  · intro hOff
    have hnone : st.board.atPos pos = none := (atPos_none_iff hb).mpr hOff
    have hsn : wouldBeSuicide st.board pos p = none :=
      wouldBeSuicide_none_iff.mpr hnone
    simp only [testA]
    rw [hsn]
  · intro hOn
    obtain ⟨s, hs⟩ := Option.isSome_iff_exists.mp
      ((atPos_isSome_iff hb).mpr hOn)
    obtain ⟨suicide, ko, _, _, htest⟩ := testA_Play_eq (p := p) hs
    refine ⟨_, htest, ?_⟩
    intro hres
    simp only [Bool.and_eq_true, Bool.not_eq_true', decide_eq_true_eq]
      at hres
    refine ⟨?_, ?_, ?_⟩ <;> tauto

/-- Counterexample for C3 as stated: playing at the off-board position
`(19,0)` from the initial state makes the guard panic (`none`), it is not
simply rejected with `false`. -/
theorem claim_C3_counterexample :
    Board19x19.onBoard (⟨19, 0⟩ : Position) = false ∧
    testA (AGAAction.Play Player.Black ⟨19, 0⟩) initState = none := by
  exact ⟨by decide, by decide⟩

/-- Witness for the amended C3 at the initial state and the on-board
position `(0,0)`. -/
theorem claim_C3_witness :
    ∃ res, testA (AGAAction.Play Player.Black ⟨0, 0⟩) initState =
        some res ∧
      (res = true → initState.board.atPos ⟨0, 0⟩ = some Stone.Empty ∧
        (initState.phase = GamePhase.Running ∨
          initState.phase = GamePhase.BlackPassed) ∧
        Player.Black = initState.current_player) :=
  (claim_C3_play_guard initState Player.Black ⟨0, 0⟩ (by decide)).2
    (by decide)

/-! ### Claims C7 and C10: phase machine and handicap -/

/-- C7: a `Pass` is accepted exactly when the phase is `Running` or
`BlackPassed` and the passer is the current player; an accepted black pass
sets `BlackPassed`, an accepted white pass sets `Ending` when the phase was
`BlackPassed` and leaves it unchanged otherwise; every accepted pass
increments the ply; every accepted `Play` resets the phase to `Running` and
increments the ply. -/
theorem claim_C7_phase_machine (st : AGAState) (p : Player) :
    (testA (AGAAction.Pass p) st = some true ↔
      ((st.phase = GamePhase.Running ∨ st.phase = GamePhase.BlackPassed) ∧
        p = st.current_player)) ∧
    (testA (AGAAction.Pass p) st = some true →
      ∃ st', execA (AGAAction.Pass p) st = some st' ∧
        st'.ply = st.ply + 1 ∧
        (p = Player.Black → st'.phase = GamePhase.BlackPassed) ∧
        (p = Player.White →
          (st.phase = GamePhase.BlackPassed →
            st'.phase = GamePhase.Ending) ∧
          (st.phase ≠ GamePhase.BlackPassed → st'.phase = st.phase))) ∧
    (∀ (pos : Position) (st' : AGAState),
      testA (AGAAction.Play p pos) st = some true →
      execA (AGAAction.Play p pos) st = some st' →
      st'.phase = GamePhase.Running ∧ st'.ply = st.ply + 1) := by
  refine ⟨?_, ?_, ?_⟩
  · simp only [testA, Option.some.injEq, decide_eq_true_eq]
  · intro _
    refine ⟨AGAState.register_ko_state
      { st with
          phase := if p = Player.Black then GamePhase.BlackPassed
            else if p = Player.White ∧ st.phase = GamePhase.BlackPassed then
              GamePhase.Ending
            else st.phase,
          ply := st.ply + 1 }, rfl, rfl, ?_, ?_⟩
    · intro hp
      subst hp
      simp [AGAState.register_ko_state]
    · intro hp
      subst hp
      constructor
      · intro hbp
        simp [hbp, AGAState.register_ko_state]
      · intro hbp
        simp [hbp, AGAState.register_ko_state]
  · intro pos st' htest hexec
    have hpos : st.board.atPos pos ≠ none := by
      intro h
      have hsn : wouldBeSuicide st.board pos p = none :=
        wouldBeSuicide_none_iff.mpr h
      simp only [testA] at htest
      rw [hsn] at htest
      exact Option.noConfusion htest
    have hcap : wouldBeCaptured st.board p pos ≠ none := by
      intro h
      exact hpos (wouldBeCaptured_none_iff.mp h)
    obtain ⟨cap, hcap'⟩ := Option.ne_none_iff_exists'.mp hcap
    rw [execA_Play_eq hcap'] at hexec
    injection hexec with hexec
    subst hexec
    exact ⟨rfl, rfl⟩

/-- Witness for C7: black's opening pass from the initial state. -/
theorem claim_C7_witness :
    ∃ st', execA (AGAAction.Pass Player.Black) initState = some st' ∧
      st'.ply = initState.ply + 1 ∧
      (Player.Black = Player.Black →
        st'.phase = GamePhase.BlackPassed) ∧
      (Player.Black = Player.White →
        (initState.phase = GamePhase.BlackPassed →
          st'.phase = GamePhase.Ending) ∧
        (initState.phase ≠ GamePhase.BlackPassed →
          st'.phase = initState.phase)) :=
  (claim_C7_phase_machine initState Player.Black).2.1 (by decide)

theorem set_handicap_outside {b : Board19x19} {n : Nat}
    (h : ¬(2 ≤ n ∧ n ≤ 9)) : b.set_handicap n = b := by
  unfold Board19x19.set_handicap
  rw [handicapStep_neg (by omega), handicapStep_neg (by omega),
    handicapStep_neg (by omega), handicapStep_neg (by omega),
    handicapStep_neg (by omega), handicapStep_neg (by omega)]

/-- C10: a `Handicap(n)` action is accepted exactly when `ply = 0`, for
every `n`; an accepted handicap with `n` outside `[2,9]` places no stones
but still increments the ply and registers a ko state; `Handicap 0` as the
first action leaves the board empty and makes white the current player. -/
theorem claim_C10_handicap :
    (∀ (n : Nat) (st : AGAState),
      testA (AGAAction.Handicap n) st = some (decide (st.ply = 0))) ∧
    (∀ (n : Nat) (st : AGAState), ¬(2 ≤ n ∧ n ≤ 9) →
      execA (AGAAction.Handicap n) st =
        some (AGAState.register_ko_state { st with ply := st.ply + 1 })) ∧
    ((runAccepted initState [AGAAction.Handicap 0]).map
      (fun st => (decide (st.board = Board19x19.new), st.current_player)) =
      some (true, Player.White)) := by
  refine ⟨fun n st => rfl, ?_, by decide⟩
  intro n st h
  simp only [execA]
  rw [set_handicap_outside h]

/-- Witness for C10: `Handicap 0` executed on the initial state registers a
ko state and increments the ply without touching the board. -/
theorem claim_C10_witness :
    execA (AGAAction.Handicap 0) initState =
      some (AGAState.register_ko_state { initState with ply := 1 }) :=
  claim_C10_handicap.2.1 0 initState (by omega)

/-! ### Claim C8: Ended is terminal -/

theorem validDead_some {b : Board19x19} (hb : b.WF) :
    ∀ dead : List Position, (∀ d ∈ dead, Board19x19.onBoard d = true) →
      ∃ v, validDeadStones b dead = some v := by
  intro dead
  induction dead with
  | nil => intro _; exact ⟨true, rfl⟩
  | cons d rest ih =>
    intro h
    obtain ⟨s, hs⟩ := Option.isSome_iff_exists.mp
      ((atPos_isSome_iff hb).mpr (h d (List.mem_cons_self d rest)))
    simp only [validDeadStones]
    rw [hs]
    show ∃ v, (if s ≠ Stone.Empty ∧ Board19x19.onBoard d = true then
      validDeadStones b rest else some false) = some v
    by_cases hc : s ≠ Stone.Empty ∧ Board19x19.onBoard d = true
    · rw [if_pos hc]
      exact ih (fun q hq => h q (List.mem_cons_of_mem d hq))
    · rw [if_neg hc]
      exact ⟨false, rfl⟩

/-- C8 (amended): on every reachable state whose phase is `Ended`, no
action's guard can be satisfied — `test` never returns `true`; it returns
`false` for every action whose positions are all on the board, while an
action naming an off-board position can panic instead (as in C3). -/
theorem claim_C8_ended_terminal (st : AGAState) (bs ws : Nat)
    (hr : Reachable st) (hph : st.phase = GamePhase.Ended bs ws) :
    ∀ a : AGAAction, testA a st ≠ some true ∧
      (actionOnBoard a → testA a st = some false) := by
  obtain ⟨hwf, hply1⟩ := reachable_inv hr
  have hply : 1 ≤ st.ply := hply1 (by rw [hph]; simp)
  intro a
  cases a with
  | Handicap n =>
    have : testA (AGAAction.Handicap n) st = some false := by
      simp only [testA, Option.some.injEq]
      simpa using fun h => by omega
    rw [this]
    exact ⟨by simp, fun _ => rfl⟩
  | Pass p =>
    have : testA (AGAAction.Pass p) st = some false := by
      simp [testA, hph]
    rw [this]
    exact ⟨by simp, fun _ => rfl⟩
  | Play p pos =>
    cases hOn : Board19x19.onBoard pos with
    | false =>
      have hnone : st.board.atPos pos = none := (atPos_none_iff hwf).mpr hOn
      have : testA (AGAAction.Play p pos) st = none := by
        simp only [testA]
        rw [wouldBeSuicide_none_iff.mpr hnone]
      rw [this]
      refine ⟨by simp, fun hOB => ?_⟩
      rw [show actionOnBoard (AGAAction.Play p pos) =
        (Board19x19.onBoard pos = true) from rfl] at hOB
      rw [hOn] at hOB
      exact Bool.noConfusion hOB
    | true =>
      obtain ⟨s, hs⟩ := Option.isSome_iff_exists.mp
        ((atPos_isSome_iff hwf).mpr hOn)
      obtain ⟨suicide, ko, _, _, htest⟩ := testA_Play_eq (p := p) hs
      have hval : testA (AGAAction.Play p pos) st = some false := by
        rw [htest]
        simp [hph]
      rw [hval]
      exact ⟨by simp, fun _ => rfl⟩
  | RequestEnd p dead =>
    constructor
    · intro hcon
      simp only [testA] at hcon
      cases hvd : validDeadStones st.board dead with
      | none => rw [hvd] at hcon; exact Option.noConfusion hcon
      | some vd =>
        rw [hvd] at hcon
        injection hcon with hcon
        have := (Bool.and_eq_true _ _).mp hcon
        have hend : st.phase = GamePhase.Ending := of_decide_eq_true this.1
        rw [hph] at hend
        exact GamePhase.noConfusion hend
    · intro hOB
      obtain ⟨v, hv⟩ := validDead_some hwf dead hOB
      simp only [testA]
      rw [hv]
      simp [hph]
  | RejectEnd p =>
    have : testA (AGAAction.RejectEnd p) st = some false := by
      simp only [testA]
      rw [hph]
    rw [this]
    exact ⟨by simp, fun _ => rfl⟩
  | AcceptEnd p =>
    have : testA (AGAAction.AcceptEnd p) st = some false := by
      simp only [testA]
      rw [hph]
    rw [this]
    exact ⟨by simp, fun _ => rfl⟩

/-- Counterexample for C8 as stated: a reachable `Ended` state on which the
test of an (off-board) `Play` panics (`none`) rather than returning
`false`. -/
theorem claim_C8_counterexample :
    (runAccepted initState endActions).map (fun st =>
      (st.phase, testA (AGAAction.Play Player.White ⟨19, 0⟩) st)) =
      some (GamePhase.Ended 361 361, none) := by
  decide

/-- Witness for the amended C8 at the concrete reachable ended state. -/
theorem claim_C8_witness :
    testA (AGAAction.Pass Player.Black) endedState ≠ some true ∧
    (actionOnBoard (AGAAction.Pass Player.Black) →
      testA (AGAAction.Pass Player.Black) endedState = some false) :=
  claim_C8_ended_terminal endedState 361 361 ⟨endActions, by decide⟩
    (by decide) (AGAAction.Pass Player.Black)

/-! ### Claim C9: erosion scoring -/

theorem erodeSweep_true_stays {s : Stone} :
    ∀ (l : List Position) (b : Board19x19),
      (erodeSweep s l (b, true)).2 = true := by
  intro l
  induction l with
  | nil => intro b; rfl
  | cons ep rest ih =>
    intro b
    show (erodeSweep s (ep :: rest) (b, true)).2 = true
    unfold erodeSweep
    split
    · exact ih _
    · exact ih _

theorem erodeSweep_false_eq {s : Stone} :
    ∀ (l : List Position) (b b2 : Board19x19) (ch : Bool),
      erodeSweep s l (b, ch) = (b2, false) →
      b2 = b ∧ ch = false ∧
        ∀ ep ∈ l, ((neighbors ep).any
          (fun n => decide (b.atPos n = some s))) = false := by
  intro l
  induction l with
  | nil =>
    intro b b2 ch h
    injection h with h1 h2
    exact ⟨h1.symm, h2, by simp⟩
  | cons ep rest ih =>
    intro b b2 ch h
    unfold erodeSweep at h
    split at h
    next hany =>
      have := congrArg Prod.snd h
      rw [erodeSweep_true_stays] at this
      exact Bool.noConfusion this
    next hany =>
      obtain ⟨h1, h2, h3⟩ := ih b b2 ch h
      refine ⟨h1, h2, ?_⟩
      intro q hq
      rcases List.mem_cons.mp hq with rfl | hq'
      · exact Bool.of_not_eq_true hany
      · exact h3 q hq'

theorem erodeSweep_WF {s : Stone} :
    ∀ (l : List Position) (b : Board19x19) (ch : Bool),
      b.WF → (erodeSweep s l (b, ch)).1.WF := by
  intro l
  induction l with
  | nil => intro b ch hb; exact hb
  | cons ep rest ih =>
    intro b ch hb
    unfold erodeSweep
    split
    · exact ih _ _ (WF_setStone hb ep s)
    · exact ih _ _ hb

theorem erodeSweep_invariant {s : Stone} (b0 : Board19x19) :
    ∀ (l : List Position) (b : Board19x19) (ch : Bool),
      (∀ q, b.atPos q = b0.atPos q ∨
        (b0.atPos q = some Stone.Empty ∧ b.atPos q = some s)) →
      (∀ ep ∈ l, b0.atPos ep = some Stone.Empty) →
      (ch = true → ∃ q, b0.atPos q = some Stone.Empty ∧
        b.atPos q = some s) →
      (∀ q, (erodeSweep s l (b, ch)).1.atPos q = b0.atPos q ∨
        (b0.atPos q = some Stone.Empty ∧
          (erodeSweep s l (b, ch)).1.atPos q = some s)) ∧
      ((erodeSweep s l (b, ch)).2 = true →
        ∃ q, b0.atPos q = some Stone.Empty ∧
          (erodeSweep s l (b, ch)).1.atPos q = some s) := by
  intro l
  induction l with
  | nil => intro b ch hinv _ hch; exact ⟨hinv, hch⟩
  | cons ep rest ih =>
    intro b ch hinv hl hch
    have hep : b0.atPos ep = some Stone.Empty :=
      hl ep (List.mem_cons_self ep rest)
    have hepSome : (b.atPos ep).isSome := by
      rcases hinv ep with h | ⟨_, h⟩ <;> rw [h]
      · rw [hep]; rfl
      · rfl
    unfold erodeSweep
    split
    · have hinv' : ∀ q, (b.setStone ep s).atPos q = b0.atPos q ∨
          (b0.atPos q = some Stone.Empty ∧
            (b.setStone ep s).atPos q = some s) := by
        intro q
        rw [atPos_setStone]
        by_cases hq : ep = q ∧ (b.atPos ep).isSome
        · rw [if_pos hq]
          exact Or.inr ⟨hq.1 ▸ hep, rfl⟩
        · rw [if_neg hq]
          exact hinv q
      have hwit : ∃ q, b0.atPos q = some Stone.Empty ∧
          (b.setStone ep s).atPos q = some s := by
        refine ⟨ep, hep, ?_⟩
        rw [atPos_setStone, if_pos ⟨rfl, hepSome⟩]
      exact ih (b.setStone ep s) true hinv'
        (fun q hq => hl q (List.mem_cons_of_mem ep hq)) (fun _ => hwit)
    · exact ih b ch hinv
        (fun q hq => hl q (List.mem_cons_of_mem ep hq)) hch

theorem mem_emptyPositions {b : Board19x19} {q : Position} :
    q ∈ emptyPositions b ↔
      q ∈ Board19x19.positions ∧ b.atPos q = some Stone.Empty := by
  unfold emptyPositions
  rw [List.mem_filter]
  simp

theorem emptyPositions_length_lt {b0 b' : Board19x19}
    (hsub : ∀ q, b'.atPos q = some Stone.Empty →
      b0.atPos q = some Stone.Empty)
    (hwit : ∃ q0, q0 ∈ Board19x19.positions ∧
      b0.atPos q0 = some Stone.Empty ∧
      b'.atPos q0 ≠ some Stone.Empty) :
    (emptyPositions b').length < (emptyPositions b0).length := by
  have hnd : ∀ b : Board19x19, (emptyPositions b).Nodup :=
    fun b => List.Nodup.filter _ positions_nodup
  rw [← List.toFinset_card_of_nodup (hnd b'),
    ← List.toFinset_card_of_nodup (hnd b0)]
  refine Finset.card_lt_card ?_
  rw [Finset.ssubset_iff_of_subset]
  · obtain ⟨q0, hq0p, hq00, hq0'⟩ := hwit
    refine ⟨q0, ?_, ?_⟩
    · rw [List.mem_toFinset, mem_emptyPositions]
      exact ⟨hq0p, hq00⟩
    · rw [List.mem_toFinset, mem_emptyPositions]
      rintro ⟨_, hc⟩
      exact hq0' hc
  · intro q hq
    rw [List.mem_toFinset, mem_emptyPositions] at hq ⊢
    exact ⟨hq.1, hsub q hq.2⟩

theorem erodeLoop_fix {s : Stone} (hs : s ≠ Stone.Empty) :
    ∀ (N : Nat) (b : Board19x19), b.WF →
      (emptyPositions b).length < N →
      (erodeLoop s N b).WF ∧
      (∀ q, (erodeLoop s N b).atPos q = b.atPos q ∨
        (b.atPos q = some Stone.Empty ∧
          (erodeLoop s N b).atPos q = some s)) ∧
      erodeSweep s (emptyPositions (erodeLoop s N b))
        (erodeLoop s N b, false) = (erodeLoop s N b, false) := by
  intro N
  induction N with
  | zero => intro b _ h; omega
  | succ n ih =>
    intro b hb hlen
    obtain ⟨hinv', hwit'⟩ := erodeSweep_invariant (s := s) b
      (emptyPositions b) b false
      (fun q => Or.inl rfl)
      (fun ep hep => (mem_emptyPositions.mp hep).2)
      (fun h => Bool.noConfusion h)
    cases hch : (erodeSweep s (emptyPositions b) (b, false)).2 with
    | false =>
      have hEp : erodeSweep s (emptyPositions b) (b, false) =
          ((erodeSweep s (emptyPositions b) (b, false)).1, false) := by
        have h0 : erodeSweep s (emptyPositions b) (b, false) =
            ((erodeSweep s (emptyPositions b) (b, false)).1,
             (erodeSweep s (emptyPositions b) (b, false)).2) := rfl
        rw [hch] at h0
        exact h0
      obtain ⟨h1, -, -⟩ := erodeSweep_false_eq (emptyPositions b) b _ false hEp
      have heq : erodeSweep s (emptyPositions b) (b, false) = (b, false) := by
        rw [hEp, h1]
      have hloop : erodeLoop s (n + 1) b = b := by
        show (match erodeSweep s (emptyPositions b) (b, false) with
          | (b', change) => if change then erodeLoop s n b' else b') = b
        rw [heq]
        simp
      rw [hloop]
      exact ⟨hb, fun q => Or.inl rfl, heq⟩
    | true =>
      set b' := (erodeSweep s (emptyPositions b) (b, false)).1 with hb'
      have hsw : erodeSweep s (emptyPositions b) (b, false) = (b', true) := by
        rw [Prod.ext_iff]
        exact ⟨rfl, hch⟩
      have hwfb' : b'.WF := erodeSweep_WF (emptyPositions b) b false hb
      obtain ⟨q0, hq00, hq0s⟩ := hwit' hch
      have hlen' : (emptyPositions b').length < (emptyPositions b).length := by
        refine emptyPositions_length_lt ?_ ?_
        · intro q hq
          rcases hinv' q with h | ⟨h1, h2⟩
          · rw [← h]; exact hq
          · exact h1
        · refine ⟨q0, ?_, hq00, ?_⟩
          · rw [mem_positions]
            have := atPos_some_onBoard hb hq00
            simp only [Board19x19.onBoard, Bool.and_eq_true,
              decide_eq_true_eq] at this
            exact this
          · rw [hq0s]
            intro hc
            injection hc with hc
            exact hs hc
      have hloop : erodeLoop s (n + 1) b = erodeLoop s n b' := by
        show (match erodeSweep s (emptyPositions b) (b, false) with
          | (b2, change) => if change then erodeLoop s n b2 else b2) =
          erodeLoop s n b'
        rw [hsw]
        simp
      obtain ⟨hwfr, hinvr, hfixr⟩ := ih b' hwfb' (by omega)
      rw [hloop]
      refine ⟨hwfr, ?_, hfixr⟩
      intro q
      rcases hinvr q with h | ⟨h1, h2⟩
      · rcases hinv' q with h' | ⟨h1', h2'⟩
        · exact Or.inl (h.trans h')
        · exact Or.inr ⟨h1', h ▸ h2'⟩
      · rcases hinv' q with h' | ⟨h1', h2'⟩
        · rw [h'] at h1
          exact Or.inr ⟨h1, h2⟩
        · exact Or.inr ⟨h1', h2⟩

/-- C9: `area_scoring` counts toward each color by the stated formula over
the two eroded clones, and `erode` really is the claim's erosion to a
fixpoint: it only fills empty positions with the target color, a further
sweep changes nothing, and in the eroded board no empty position has a
neighbor of the target color. -/
theorem claim_C9_area_scoring (b : Board19x19) (hb : b.WF) :
    areaScoring b =
      ((Board19x19.positions.filter (fun pos =>
          decide ((erode b Stone.Black).atPos pos = some Stone.Black) ||
          !decide ((erode b Stone.White).atPos pos =
            some Stone.White))).length,
        (Board19x19.positions.filter (fun pos =>
          decide ((erode b Stone.White).atPos pos = some Stone.White) ||
          !decide ((erode b Stone.Black).atPos pos =
            some Stone.Black))).length) ∧
    (∀ s : Stone, s ≠ Stone.Empty →
      (∀ q, (erode b s).atPos q = b.atPos q ∨
        (b.atPos q = some Stone.Empty ∧ (erode b s).atPos q = some s)) ∧
      erodeSweep s (emptyPositions (erode b s)) (erode b s, false) =
        (erode b s, false) ∧
      (∀ q, (erode b s).atPos q = some Stone.Empty →
        ∀ n ∈ neighbors q, (erode b s).atPos n ≠ some s)) := by
  constructor
  · rfl
  · intro s hs
    obtain ⟨hwf, hinv, hfix⟩ := erodeLoop_fix hs
      ((emptyPositions b).length + 1) b hb (by omega)
    refine ⟨hinv, hfix, ?_⟩
    intro q hq n hn hcon
    obtain ⟨-, -, hall⟩ := erodeSweep_false_eq
      (emptyPositions (erode b s)) (erode b s) (erode b s) false hfix
    have hqmem : q ∈ emptyPositions (erode b s) := by
      rw [mem_emptyPositions]
      refine ⟨?_, hq⟩
      rw [mem_positions]
      have := atPos_some_onBoard hwf hq
      simp only [Board19x19.onBoard, Bool.and_eq_true,
        decide_eq_true_eq] at this
      exact this
    have := hall q hqmem
    rw [List.any_eq_false] at this
    exact absurd (by simpa using hcon) (by simpa using this n hn)

/-- Witness for C9 on the empty board: the score formula gives 361 points to
each side. -/
theorem claim_C9_witness : areaScoring Board19x19.new = (361, 361) := by
  have h := (claim_C9_area_scoring Board19x19.new (by decide)).1
  rw [h]
  decide

/-! ### Claims C5 and C6: the generic action-tree engine -/

namespace Engine

theorem chainTo_lt {α : Type} {g : Game α} {f c : Nat} {l : List α}
    (h : chainTo g f c = some l) : c < g.data.length := by
  cases f with
  | zero => exact Option.noConfusion h
  | succ f =>
    simp only [chainTo] at h
    cases hg : g.data.get? c with
    | none =>
      simp only [hg] at h
      exact Option.noConfusion h
    | some item =>
      obtain ⟨hlt, -⟩ := List.get?_eq_some.mp hg
      exact hlt

theorem chainTo_mono {α : Type} {g : Game α} :
    ∀ {f f' c : Nat} {l : List α}, f ≤ f' → chainTo g f c = some l →
      chainTo g f' c = some l := by
  intro f
  induction f with
  | zero => intro f' c l _ h; exact Option.noConfusion h
  | succ f ih =>
    intro f' c l hle h
    obtain ⟨f'', rfl⟩ : ∃ f'', f' = f'' + 1 := ⟨f' - 1, by omega⟩
    simp only [chainTo] at h ⊢
    cases hg : g.data.get? c with
    | none =>
      simp only [hg] at h
      exact Option.noConfusion h
    | some item =>
      simp only [hg] at h ⊢
      cases hp : item.parent with
      | Empty =>
        simp only [hp] at h ⊢
        exact h
      | HistoryItemId next =>
        simp only [hp] at h ⊢
        cases hch : chainTo g f next with
        | none =>
          simp only [hch] at h
          exact Option.noConfusion h
        | some l' =>
          simp only [hch] at h
          rw [ih (by omega) hch]
          exact h

theorem chainTo_append {α : Type} {g : Game α}
    {more : List (HistoryItem α)} :
    ∀ {f c : Nat} {l : List α}, chainTo g f c = some l →
      chainTo (⟨g.data ++ more⟩ : Game α) f c = some l := by
  intro f
  induction f with
  | zero => intro c l h; exact Option.noConfusion h
  | succ f ih =>
    intro c l h
    simp only [chainTo] at h ⊢
    cases hg : g.data.get? c with
    | none =>
      simp only [hg] at h
      exact Option.noConfusion h
    | some item =>
      simp only [hg] at h
      obtain ⟨hlt, -⟩ := List.get?_eq_some.mp hg
      have hg2 : (⟨g.data ++ more⟩ : Game α).data.get? c = some item := by
        show (g.data ++ more).get? c = some item
        rw [List.get?_append hlt]
        exact hg
      simp only [hg2]
      cases hp : item.parent with
      | Empty =>
        simp only [hp] at h ⊢
        exact h
      | HistoryItemId next =>
        simp only [hp] at h ⊢
        cases hch : chainTo g f next with
        | none =>
          simp only [hch] at h
          exact Option.noConfusion h
        | some l' =>
          simp only [hch] at h
          rw [ih hch]
          exact h

theorem ancestry_empty {α : Type} {g : Game α} {l : List α}
    (h : Ancestry g Path.Empty l) : l = [] := by
  cases h
  rfl

theorem anc_chain {α : Type} {g : Game α} (hwf : WFGame g) :
    ∀ {p : Path} {l : List α}, Ancestry g p l →
      ∀ i, p = Path.HistoryItemId i →
        chainTo g (i + 1) i = some l.reverse := by
  intro p l h
  induction h with
  | root => intro i hi; exact Path.noConfusion hi
  | node i' item l' hget hanc ih =>
    intro i hi
    injection hi with hi
    subst hi
    simp only [chainTo, hget]
    cases hp : item.parent with
    | Empty =>
      rw [hp] at hanc
      simp only [hp]
      rw [ancestry_empty hanc]
      simp
    | HistoryItemId j =>
      have hj : j < i' := hwf i' item j hget hp
      rw [hp] at hanc ih
      have hch := ih j rfl
      simp only [hp]
      rw [chainTo_mono (by omega) hch]
      simp

theorem getState_ancestry {σ α : Type} (init : σ) (ex : α → σ → σ)
    {g : Game α} (hwf : WFGame g) {p : Path} {l : List α}
    (h : Ancestry g p l) :
    getState init ex g p = some (l.foldl (fun s a => ex a s) init) := by
  cases p with
  | Empty =>
    rw [ancestry_empty h]
    rfl
  | HistoryItemId i =>
    show (chainTo g (i + 1) i).map _ = _
    rw [anc_chain hwf h i rfl]
    simp

theorem getState_append {σ α : Type} (init : σ) (ex : α → σ → σ)
    {g : Game α} {p : Path} {st : σ} {more : List (HistoryItem α)}
    (h : getState init ex g p = some st) :
    getState init ex (⟨g.data ++ more⟩ : Game α) p = some st := by
  cases p with
  | Empty => exact h
  | HistoryItemId i =>
    show (chainTo (⟨g.data ++ more⟩ : Game α) (i + 1) i).map _ = _
    have h' : (chainTo g (i + 1) i).map
        (fun l => l.reverse.foldl (fun s a => ex a s) init) = some st := h
    cases hch : chainTo g (i + 1) i with
    | none => rw [hch] at h'; exact Option.noConfusion h'
    | some l =>
      rw [hch] at h'
      rw [chainTo_append hch]
      exact h'

theorem getState_insert_child {σ α : Type} (init : σ) (ex : α → σ → σ)
    {g : Game α} {parent : Path} {a : α} {st : σ}
    (hst : getState init ex g parent = some st) :
    getState init ex (⟨g.data ++ [⟨parent, a⟩]⟩ : Game α)
      (Path.HistoryItemId g.data.length) = some (ex a st) := by
  show (chainTo (⟨g.data ++ [⟨parent, a⟩]⟩ : Game α)
    (g.data.length + 1) g.data.length).map _ = _
  have hget : (⟨g.data ++ [⟨parent, a⟩]⟩ : Game α).data.get?
      g.data.length = some ⟨parent, a⟩ := by
    show (g.data ++ [(⟨parent, a⟩ : HistoryItem α)]).get?
      g.data.length = _
    exact List.get?_concat_length g.data (⟨parent, a⟩ : HistoryItem α)
  simp only [chainTo, hget]
  cases hp : parent with
  | Empty =>
    rw [hp] at hst
    have hsti : st = init := by
      injection hst with h
      exact h.symm
    subst hsti
    rfl
  | HistoryItemId j =>
    rw [hp] at hst
    have hst' : (chainTo g (j + 1) j).map
        (fun l => l.reverse.foldl (fun s a => ex a s) init) = some st := hst
    cases hch : chainTo g (j + 1) j with
    | none => rw [hch] at hst'; exact Option.noConfusion hst'
    | some l =>
      rw [hch] at hst'
      have hjlt : j < g.data.length := chainTo_lt hch
      have hch2 : chainTo (⟨g.data ++ [⟨parent, a⟩]⟩ : Game α)
          g.data.length j = some l :=
        chainTo_append (chainTo_mono (by omega) hch)
      rw [hp] at hch2
      simp only [hp, hch2]
      injection hst' with hst'
      rw [← hst']
      refine congrArg some ?_
      show (a :: l).reverse.foldl (fun s a => ex a s) init = _
      rw [List.reverse_cons, List.foldl_append]
      rfl

end Engine

theorem sampleGame_WF : Engine.WFGame Engine.sampleGame := by
  intro i item j h hp
  cases i with
  | zero =>
    injection h with h
    rw [← h] at hp
    simp at hp
  | succ i => exact Option.noConfusion h

/-- C5: `get_state` of the root is the initial state; on a tree whose parent
ids decrease (every tree built by `insert`), `get_state` of a path replays
its ancestor chain's actions in root-to-leaf order from the initial state; a
path returned by a successful `insert` reconstructs to `execute a` of the
parent's state; and `get_state` is unchanged by later appends, since history
items are only ever appended. -/
theorem claim_C5_get_state {σ α : Type} (init : σ)
    (tst : α → σ → Bool) (ex : α → σ → σ) (g : Engine.Game α) :
    (Engine.getState init ex g Engine.Path.Empty = some init) ∧
    (Engine.WFGame g → ∀ (p : Engine.Path) (l : List α),
      Engine.Ancestry g p l →
      Engine.getState init ex g p =
        some (l.foldl (fun s a => ex a s) init)) ∧
    (∀ (parent : Engine.Path) (a : α) (st : σ) (g' : Engine.Game α)
        (c : Engine.Path),
      Engine.getState init ex g parent = some st →
      tst a st = true →
      Engine.insert init tst ex g parent a = some (g', c) →
      Engine.getState init ex g' c = some (ex a st)) ∧
    (∀ (p : Engine.Path) (st : σ) (more : List (Engine.HistoryItem α)),
      Engine.getState init ex g p = some st →
      Engine.getState init ex (⟨g.data ++ more⟩ : Engine.Game α) p =
        some st) := by
  refine ⟨rfl, ?_, ?_, ?_⟩
  · intro hwf p l h
    exact Engine.getState_ancestry init ex hwf h
  · intro parent a st g' c hst htst hins
    unfold Engine.insert at hins
    rw [hst] at hins
    simp only [Option.map_some'] at hins
    rw [if_pos htst] at hins
    injection hins with hins
    have hg' : g' = ⟨g.data ++ [⟨parent, a⟩]⟩ := (congrArg Prod.fst hins).symm
    have hc : c = Engine.Path.HistoryItemId g.data.length :=
      (congrArg Prod.snd hins).symm
    subst hg'
    subst hc
    exact Engine.getState_insert_child init ex hst
  · intro p st more hst
    exact Engine.getState_append init ex hst

/-- Witness for C5: a one-item tree whose single path replays its single
action. -/
theorem claim_C5_witness :
    Engine.getState 7 (fun (_ : Unit) (s : Nat) => s + 1) Engine.sampleGame
      (Engine.Path.HistoryItemId 0) = some 8 :=
  (claim_C5_get_state 7 (fun _ _ => true) (fun _ s => s + 1)
      Engine.sampleGame).2.1 sampleGame_WF (Engine.Path.HistoryItemId 0) [()]
    (Engine.Ancestry.node 0 ⟨Engine.Path.Empty, ()⟩ [] rfl
      Engine.Ancestry.root)

/-- C6: when the reconstruction of the parent state succeeds, an `insert`
whose action fails `test` returns the root sentinel and leaves the tree
unchanged, and an `insert` whose action passes `test` appends exactly one
history item (referenced by the returned non-root path). -/
theorem claim_C6_insert {σ α : Type} (init : σ) (tst : α → σ → Bool)
    (ex : α → σ → σ) (g : Engine.Game α) (parent : Engine.Path) (a : α)
    (st : σ) (hst : Engine.getState init ex g parent = some st) :
    (tst a st = false →
      Engine.insert init tst ex g parent a =
        some (g, Engine.Path.Empty)) ∧
    (tst a st = true →
      Engine.insert init tst ex g parent a =
        some (⟨g.data ++ [⟨parent, a⟩]⟩,
          Engine.Path.HistoryItemId g.data.length) ∧
      (⟨g.data ++ [⟨parent, a⟩]⟩ : Engine.Game α).data.length =
        g.data.length + 1 ∧
      (⟨g.data ++ [⟨parent, a⟩]⟩ : Engine.Game α).data.get?
        g.data.length = some ⟨parent, a⟩ ∧
      Engine.Path.HistoryItemId g.data.length ≠ Engine.Path.Empty) := by
  constructor
  · intro hf
    unfold Engine.insert
    rw [hst]
    simp only [Option.map_some']
    rw [if_neg (by rw [hf]; exact Bool.noConfusion)]
  · intro ht
    refine ⟨?_, by simp, ?_, by simp⟩
    · unfold Engine.insert
      rw [hst]
      simp only [Option.map_some']
      rw [if_pos ht]
    · show (g.data ++ [(⟨parent, a⟩ : Engine.HistoryItem α)]).get?
        g.data.length = _
      exact List.get?_concat_length g.data _

/-- Witness for C6: inserting into the empty tree with an always-false test
returns the root sentinel and the unchanged tree. -/
theorem claim_C6_witness :
    Engine.insert 0 (fun (_ : Unit) (_ : Nat) => false) (fun _ s => s)
      (⟨[]⟩ : Engine.Game Unit) Engine.Path.Empty () =
      some (⟨[]⟩, Engine.Path.Empty) :=
  (claim_C6_insert 0 (fun _ _ => false) (fun _ s => s) ⟨[]⟩
    Engine.Path.Empty () 0 rfl).1 rfl
